import Mathlib

/-!
Verification of the labdb hierarchical metadata store.

The Python source is shallowly embedded: Python strings become `List Char`,
MongoDB collections become lists of document records, raised exceptions become
`Option`/`Except`-style results, and the wall clock becomes a monotone counter.
Each definition mirrors one function of the source (`src/labdb/utils.py`,
`src/labdb/database.py`, `src/labdb/api.py`, `src/labdb/serialization.py`).
-/

namespace LabDB

/-- Python strings are modelled as lists of characters. -/
abbrev Str := List Char

/-! ## PathModel (src/labdb/utils.py) -/

/-- Membership in `ALLOWED_PATH_CHARS`
(`string.ascii_lowercase + string.ascii_uppercase + string.digits + ".-_/*$()"`). -/
def isAllowedPathChar (c : Char) : Bool :=
  ('a' ≤ c && c ≤ 'z') || ('A' ≤ c && c ≤ 'Z') || ('0' ≤ c && c ≤ '9') ||
    c == '.' || c == '-' || c == '_' || c == '/' || c == '*' ||
    c == '$' || c == '(' || c == ')'

/-- `split_path` from utils.py.  `none` models a raised exception.
The Python code checks: leading slash, the wildcard rule
(`"*" in path and not path.endswith("/*")`), the character allow-list, and then
splits on `/` discarding empty segments. -/
def splitPath (p : Str) : Option (List Str) :=
  if p.take 1 ≠ ['/'] then none
  else if '*' ∈ p ∧ ¬ ['/', '*'] <:+ p then none
  else if ¬ ∀ c ∈ p, isAllowedPathChar c then none
  else some ((p.splitOn '/').filter (fun s => !s.isEmpty))

/-- The wildcard check of `join_path`: a `*` may occur only as the standalone
final segment. -/
def wildcardOkSegs : List Str → Bool
  | [] => true
  | [s] => !s.contains '*' || s == ['*']
  | s :: rest => !s.contains '*' && wildcardOkSegs rest

/-- `join_path` from utils.py on a list of segments.  `none` models a raised
exception.  Checks, in source order: no empty segment, the wildcard rule, and
that every non-`*` character is allowed; then returns `"/" + "/".join(segments)`. -/
def joinPath (segs : List Str) : Option Str :=
  if ¬ ∀ s ∈ segs, s ≠ [] then none
  else if ¬ wildcardOkSegs segs then none
  else if ¬ ∀ s ∈ segs, ∀ c ∈ s, c = '*' ∨ isAllowedPathChar c then none
  else some ('/' :: List.intercalate ['/'] segs)

/-- `validate_path` from utils.py on a string path: split, re-join, and demand
the result is unchanged, plus the wildcard rule.  `true` means no exception. -/
def validatePath (p : Str) : Bool :=
  match splitPath p with
  | none => false
  | some segs =>
    match joinPath segs with
    | none => false
    | some j => j == p && (!p.contains '*' || ['/', '*'].isSuffixOf p)

/-- A canonical (valid, already normalized) path string, following the spec:
starts with `/`, only allowed characters, no consecutive slashes (nothing to
collapse), no trailing slash except the root itself, and any `*` occurs exactly
once, as the final `/*`. -/
def noDoubleSlash : Str → Bool
  | [] => true
  | [_] => true
  | a :: b :: rest => !(a == '/' && b == '/') && noDoubleSlash (b :: rest)

/-- Canonical path strings (see `noDoubleSlash`). -/
def isCanonicalPath (p : Str) : Bool :=
  p.take 1 == ['/'] &&
  p.all isAllowedPathChar &&
  noDoubleSlash p &&
  (p == ['/'] || !(p.getLast? == some '/')) &&
  (!p.contains '*' || (p.count '*' == 1 && ['/', '*'].isSuffixOf p))

/-- A valid segment per the spec side of C5: non-empty, drawn from the
allow-list, containing no slash. -/
def isValidSeg (s : Str) : Bool :=
  !s.isEmpty && s.all (fun c => isAllowedPathChar c && c != '/')

/-- A valid segment list: valid segments obeying the wildcard rule. -/
def isValidSegs (segs : List Str) : Bool :=
  segs.all isValidSeg && wildcardOkSegs segs

/-- The path string produced by `join_path` on segments: `"/" + "/".join(segs)`. -/
def renderPath (segs : List Str) : Str := '/' :: List.intercalate ['/'] segs

theorem intercalate_nil (sep : Str) : List.intercalate sep [] = [] := rfl

theorem intercalate_single (sep : Str) (a : Str) : List.intercalate sep [a] = a := by
  simp [List.intercalate]

theorem intercalate_cons₂ (sep a b : Str) (t : List Str) :
    List.intercalate sep (a :: b :: t) = a ++ sep ++ List.intercalate sep (b :: t) := by
  simp [List.intercalate, List.intersperse]

theorem mem_of_mem_intercalate {c : Char} {sep : Str} {xs : List Str}
    (h : c ∈ List.intercalate sep xs) : c ∈ sep ∨ ∃ t ∈ xs, c ∈ t := by
  induction xs with
  | nil => simp [intercalate_nil] at h
  | cons a t ih =>
    cases t with
    | nil =>
      rw [intercalate_single] at h
      exact Or.inr ⟨a, by simp, h⟩
    | cons b t' =>
      rw [intercalate_cons₂] at h
      rcases List.mem_append.1 h with h1 | h2
      · rcases List.mem_append.1 h1 with h3 | h4
        · exact Or.inr ⟨a, by simp, h3⟩
        · exact Or.inl h4
      · rcases ih h2 with h5 | ⟨t, ht, hc⟩
        · exact Or.inl h5
        · exact Or.inr ⟨t, by simp [ht], hc⟩

theorem mem_intercalate_of_mem {c : Char} {sep : Str} {xs : List Str} {t : Str}
    (ht : t ∈ xs) (hc : c ∈ t) : c ∈ List.intercalate sep xs := by
  induction xs with
  | nil => simp at ht
  | cons a u ih =>
    cases u with
    | nil =>
      rw [intercalate_single]
      rcases List.mem_cons.1 ht with rfl | h
      · exact hc
      · simp at h
    | cons b u' =>
      rw [intercalate_cons₂]
      rcases List.mem_cons.1 ht with rfl | h
      · exact List.mem_append.2 (Or.inl (List.mem_append.2 (Or.inl hc)))
      · exact List.mem_append.2 (Or.inr (ih h))

theorem wildcardOkSegs_cases {segs : List Str} (h : wildcardOkSegs segs = true) :
    (∀ t ∈ segs, '*' ∉ t) ∨ ∃ s', segs = s' ++ [['*']] ∧ ∀ t ∈ s', '*' ∉ t := by
  induction segs with
  | nil => exact Or.inl (by simp)
  | cons a t ih =>
    cases t with
    | nil =>
      simp only [wildcardOkSegs, Bool.or_eq_true] at h
      rcases h with h | h
      · refine Or.inl ?_
        intro u hu
        rcases List.mem_cons.1 hu with rfl | h2
        · simpa [List.contains] using h
        · simp at h2
      · refine Or.inr ⟨[], by simpa using eq_of_beq h, by simp⟩
    | cons b t' =>
      simp only [wildcardOkSegs, Bool.and_eq_true] at h
      rcases ih h.2 with h2 | ⟨s', hs', hfree⟩
      · refine Or.inl ?_
        intro u hu
        rcases List.mem_cons.1 hu with rfl | h3
        · simpa [List.contains] using h.1
        · exact h2 u h3
      · refine Or.inr ⟨a :: s', by rw [hs']; rfl, ?_⟩
        intro u hu
        rcases List.mem_cons.1 hu with rfl | h3
        · simpa [List.contains] using h.1
        · exact hfree u h3

theorem wildcardOkSegs_of_free {segs : List Str} (h : ∀ t ∈ segs, '*' ∉ t) :
    wildcardOkSegs segs = true := by
  induction segs with
  | nil => rfl
  | cons a t ih =>
    cases t with
    | nil =>
      simp only [wildcardOkSegs, Bool.or_eq_true]
      exact Or.inl (by simpa [List.contains] using h a (by simp))
    | cons b t' =>
      simp only [wildcardOkSegs, Bool.and_eq_true]
      exact ⟨by simpa [List.contains] using h a (by simp),
        ih (fun u hu => h u (by simp [hu]))⟩

theorem wildcardOkSegs_append_star {s' : List Str} (h : ∀ t ∈ s', '*' ∉ t) :
    wildcardOkSegs (s' ++ [['*']]) = true := by
  induction s' with
  | nil => rfl
  | cons a t ih =>
    have ha : '*' ∉ a := h a (by simp)
    have step : wildcardOkSegs (a :: (t ++ [['*']])) =
        (!a.contains '*' && wildcardOkSegs (t ++ [['*']])) := by
      cases t <;> rfl
    rw [List.cons_append, step]
    simp only [Bool.and_eq_true]
    exact ⟨by simpa [List.contains] using ha, ih (fun u hu => h u (by simp [hu]))⟩

theorem intercalate_append_single (sep : Str) {s' : List Str} (h : s' ≠ []) (y : Str) :
    List.intercalate sep (s' ++ [y]) = List.intercalate sep s' ++ sep ++ y := by
  induction s' with
  | nil => exact absurd rfl h
  | cons a t ih =>
    cases t with
    | nil => simp [intercalate_cons₂, intercalate_single]
    | cons b t' =>
      have ih' := ih (by simp)
      rw [List.cons_append] at ih'
      rw [List.cons_append, List.cons_append, intercalate_cons₂, ih',
        intercalate_cons₂]
      simp [List.append_assoc]

theorem valid_seg_facts {s : Str} (h : isValidSeg s = true) :
    s ≠ [] ∧ ∀ c ∈ s, isAllowedPathChar c = true ∧ c ≠ '/' := by
  simp only [isValidSeg, Bool.and_eq_true, List.all_eq_true] at h
  refine ⟨?_, ?_⟩
  · intro hnil; rw [hnil] at h; simp [List.isEmpty] at h
  · intro c hc
    have := h.2 c hc
    simp only [Bool.and_eq_true, bne_iff_ne] at this
    exact this

theorem joinPath_of_valid {segs : List Str} (h : isValidSegs segs = true) :
    joinPath segs = some (renderPath segs) := by
  simp only [isValidSegs, Bool.and_eq_true, List.all_eq_true] at h
  obtain ⟨hseg, hwild⟩ := h
  have h1 : ∀ s ∈ segs, s ≠ [] := fun s hs => (valid_seg_facts (hseg s hs)).1
  have h3 : ∀ s ∈ segs, ∀ c ∈ s, c = '*' ∨ isAllowedPathChar c := by
    intro s hs c hc
    exact Or.inr ((valid_seg_facts (hseg s hs)).2 c hc).1
  rw [joinPath, if_neg (not_not_intro h1), if_neg (not_not_intro hwild),
    if_neg (not_not_intro h3)]
  rfl

theorem splitOn_slash_cons (xs : Str) :
    ('/' :: xs).splitOn '/' = [] :: xs.splitOn '/' := by
  simp [List.splitOn]

theorem splitPath_render {segs : List Str} (h : isValidSegs segs = true) :
    splitPath (renderPath segs) = some segs := by
  simp only [isValidSegs, Bool.and_eq_true, List.all_eq_true] at h
  obtain ⟨hseg, hwild⟩ := h
  have hchars : ∀ c ∈ renderPath segs, isAllowedPathChar c := by
    intro c hc
    rcases List.mem_cons.1 hc with rfl | hc2
    · decide
    · rcases mem_of_mem_intercalate hc2 with hsep | ⟨t, ht, hct⟩
      · have : c = '/' := by simpa using hsep
        subst this; decide
      · exact ((valid_seg_facts (hseg t ht)).2 c hct).1
  have hwc : '*' ∈ renderPath segs → ['/', '*'] <:+ renderPath segs := by
    intro hstar
    rcases wildcardOkSegs_cases hwild with hfree | ⟨s', rfl, hfree⟩
    · exfalso
      rcases List.mem_cons.1 hstar with h1 | h2
      · exact absurd h1 (by decide)
      · rcases mem_of_mem_intercalate h2 with h3 | ⟨t, ht, hct⟩
        · exact absurd (List.mem_singleton.mp h3) (by decide)
        · exact hfree t ht hct
    · cases s' with
      | nil => exact List.suffix_refl _
      | cons a t =>
        rw [renderPath, intercalate_append_single _ (by simp)]
        refine ⟨'/' :: List.intercalate ['/'] (a :: t), ?_⟩
        simp
  rw [splitPath, if_neg (by simp [renderPath]), if_neg ?hw,
    if_neg (not_not_intro hchars)]
  case hw =>
    intro ⟨hstar, hnsuf⟩
    exact hnsuf (hwc hstar)
  cases segs with
  | nil => rfl
  | cons a t =>
    have hne : (a :: t : List Str) ≠ [] := by simp
    have hx : ∀ l ∈ (a :: t : List Str), '/' ∉ l := by
      intro l hl hc
      exact ((valid_seg_facts (hseg l hl)).2 _ hc).2 rfl
    rw [renderPath, splitOn_slash_cons, List.splitOn_intercalate (a :: t) '/' hx hne,
      List.filter_cons_of_neg (by decide), List.filter_eq_self.mpr ?hall]
    case hall =>
      intro s hs
      have := (valid_seg_facts (hseg s hs)).1
      cases s with
      | nil => exact absurd rfl this
      | cons c cs => rfl

theorem noDoubleSlash_tail {c : Char} {cs : Str} (h : noDoubleSlash (c :: cs) = true) :
    noDoubleSlash cs = true := by
  cases cs with
  | nil => rfl
  | cons b t =>
    simp only [noDoubleSlash, Bool.and_eq_true] at h
    exact h.2

theorem noDoubleSlash_append_right {xs ys : Str} (h : noDoubleSlash (xs ++ ys) = true) :
    noDoubleSlash ys = true := by
  induction xs with
  | nil => exact h
  | cons a t ih => exact ih (noDoubleSlash_tail h)

theorem dropWhile_head_false {p : Char → Bool} :
    ∀ {l : Str} {c : Char} {cs : Str}, List.dropWhile p l = c :: cs → p c = false := by
  intro l
  induction l with
  | nil => intro c cs h; simp [List.dropWhile] at h
  | cons a t ih =>
    intro c cs h
    rw [List.dropWhile_cons] at h
    by_cases hp : p a
    · rw [if_pos hp] at h
      exact ih h
    · rw [if_neg hp] at h
      cases h
      exact Bool.not_eq_true _ ▸ (by simpa using hp)

/-- Structural completeness: a string with only allowed characters, no leading,
trailing or doubled slash is the `/`-intercalation of nonempty slash-free
segments. -/
theorem rest_decomp : ∀ (n : Nat) (rest : Str), rest.length ≤ n →
    (∀ c ∈ rest, isAllowedPathChar c = true) →
    rest.head? ≠ some '/' →
    noDoubleSlash rest = true →
    rest.getLast? ≠ some '/' →
    ∃ segs : List Str,
      (∀ s ∈ segs, s ≠ [] ∧ '/' ∉ s ∧ ∀ c ∈ s, isAllowedPathChar c = true) ∧
      rest = List.intercalate ['/'] segs := by
  intro n
  induction n with
  | zero =>
    intro rest hlen _ _ _ _
    have : rest = [] := List.length_eq_zero.mp (Nat.le_zero.mp hlen)
    exact ⟨[], by simp, by rw [this, intercalate_nil]⟩
  | succ n ih =>
    intro rest hlen hchars hhead hnds hlast
    cases rest with
    | nil => exact ⟨[], by simp, by rw [intercalate_nil]⟩
    | cons c cs =>
      have hc : (c != '/') = true := by
        rw [bne_iff_ne]
        intro h
        exact hhead (by rw [h]; rfl)
      have hsplit : List.takeWhile (· != '/') (c :: cs) ++
          List.dropWhile (· != '/') (c :: cs) = c :: cs :=
        List.takeWhile_append_dropWhile _ _
      have hsegfree : '/' ∉ List.takeWhile (· != '/') (c :: cs) := by
        intro hmem
        have := List.mem_takeWhile_imp hmem
        simp at this
      have hsegne : List.takeWhile (· != '/') (c :: cs) ≠ [] := by
        rw [List.takeWhile_cons, if_pos hc]
        simp
      cases hr2 : List.dropWhile (· != '/') (c :: cs) with
      | nil =>
        refine ⟨[List.takeWhile (· != '/') (c :: cs)], ?_, ?_⟩
        · intro s hs
          rcases List.mem_singleton.mp hs with rfl
          refine ⟨hsegne, hsegfree, ?_⟩
          intro x hx
          exact hchars x (hsplit ▸ List.mem_append_left _ hx)
        · rw [intercalate_single]
          rw [hr2, List.append_nil] at hsplit
          exact hsplit.symm
      | cons d tail =>
        have hd : d = '/' := by
          have := dropWhile_head_false hr2
          simpa using this
        subst hd
        rw [hr2] at hsplit
        generalize hsegdef : List.takeWhile (· != '/') (c :: cs) = seg at hsegfree hsegne hsplit
        have hsegchars : ∀ x ∈ seg, isAllowedPathChar x = true := by
          intro x hx
          exact hchars x (hsplit ▸ List.mem_append_left _ hx)
        have htailne : tail ≠ [] := by
          intro h0
          apply hlast
          rw [← hsplit, h0, List.getLast?_concat]
        have hnds_whole : noDoubleSlash (seg ++ '/' :: tail) = true := by
          rw [hsplit]; exact hnds
        have hnds_tail : noDoubleSlash ('/' :: tail) = true :=
          noDoubleSlash_append_right hnds_whole
        have hheadtail : tail.head? ≠ some '/' := by
          cases tail with
          | nil => simp
          | cons e ts =>
            simp only [noDoubleSlash, Bool.and_eq_true, Bool.not_eq_true'] at hnds_tail
            intro h0
            have he : e = '/' := by simpa using h0
            rw [he] at hnds_tail
            simp at hnds_tail
        have hndstail : noDoubleSlash tail = true := noDoubleSlash_tail hnds_tail
        have hlasttail : tail.getLast? ≠ some '/' := by
          intro h0
          apply hlast
          rw [← hsplit, List.getLast?_append]
          cases tail with
          | nil => exact absurd rfl htailne
          | cons e ts => rw [List.getLast?_cons_cons, h0]; rfl
        have hlen2 : tail.length ≤ n := by
          rw [← hsplit] at hlen
          have h2 : 1 ≤ seg.length := by
            cases seg with
            | nil => exact absurd rfl hsegne
            | cons _ _ => simp
          simp only [List.length_append, List.length_cons] at hlen
          omega
        have hcharstail : ∀ x ∈ tail, isAllowedPathChar x = true := by
          intro x hx
          exact hchars x (hsplit ▸ List.mem_append_right _ (List.mem_cons_of_mem _ hx))
        obtain ⟨segs', hprops, htail_eq⟩ := ih tail hlen2 hcharstail hheadtail hndstail hlasttail
        cases segs' with
        | nil =>
          rw [intercalate_nil] at htail_eq
          exact absurd htail_eq htailne
        | cons b t =>
          refine ⟨seg :: b :: t, ?_, ?_⟩
          · intro s hs
            rcases List.mem_cons.1 hs with rfl | hs2
            · exact ⟨hsegne, hsegfree, hsegchars⟩
            · exact hprops s hs2
          · rw [intercalate_cons₂, ← hsplit, htail_eq]
            simp [List.append_assoc]

theorem last_seg_star {w lastSeg p : Str} (hsl : '/' ∉ lastSeg) (hne : lastSeg ≠ [])
    (hp : p = w ++ lastSeg) (hsuf : ['/', '*'] <:+ p) :
    lastSeg = ['*'] := by
  obtain ⟨u, hu⟩ := hsuf
  rw [hp] at hu
  rcases List.eq_nil_or_concat lastSeg with rfl | ⟨mid, z, rfl⟩
  · exact absurd rfl hne
  · rw [List.concat_eq_append] at *
    have hz : z = '*' := by
      have h1 : (u ++ ['/', '*']).getLast? = some '*' := by
        rw [show u ++ ['/', '*'] = (u ++ ['/']) ++ ['*'] by simp, List.getLast?_concat]
      rw [hu] at h1
      rw [show w ++ (mid ++ [z]) = (w ++ mid) ++ [z] by simp, List.getLast?_concat] at h1
      exact Option.some_inj.mp h1
    subst hz
    have hcancel : u ++ ['/'] = w ++ mid := by
      refine List.append_cancel_right
        (?_ : (u ++ ['/']) ++ ['*'] = (w ++ mid) ++ ['*'])
      rw [show (u ++ ['/']) ++ ['*'] = u ++ ['/', '*'] by simp, hu]
      simp
    cases mid with
    | nil => rfl
    | cons m ms =>
      exfalso
      have h2 : (u ++ ['/']).getLast? = some '/' := List.getLast?_concat _
      rw [hcancel, List.getLast?_append] at h2
      have h3 : (m :: ms).getLast? = some '/' := by
        cases h4 : (m :: ms).getLast? with
        | none => simp at h4
        | some y =>
          rw [h4] at h2
          simpa using h2
      have h5 : '/' ∈ m :: ms := List.mem_of_mem_getLast? (by rw [h3]; rfl)
      exact hsl (List.mem_append_left _ h5)

theorem wildcardOk_of_decomp {p : Str} {segs : List Str}
    (hplain : ∀ s ∈ segs, s ≠ [] ∧ '/' ∉ s ∧ ∀ c ∈ s, isAllowedPathChar c = true)
    (hp : p = renderPath segs)
    (hw : ('*' ∉ p) ∨ (p.count '*' = 1 ∧ ['/', '*'] <:+ p)) :
    wildcardOkSegs segs = true := by
  rcases hw with hfree | ⟨hcount, hsuf⟩
  · apply wildcardOkSegs_of_free
    intro t ht hstar
    exact hfree (hp ▸ List.mem_cons_of_mem _ (mem_intercalate_of_mem ht hstar))
  · rcases List.eq_nil_or_concat segs with rfl | ⟨s', lastSeg, rfl⟩
    · obtain ⟨u, hu⟩ := hsuf
      rw [hp] at hu
      have := congrArg List.length hu
      simp [renderPath, intercalate_nil] at this
    · rw [List.concat_eq_append] at *
      have hlastmem : lastSeg ∈ s' ++ [lastSeg] := List.mem_append_right _ (by simp)
      obtain ⟨hne, hsl, _⟩ := hplain lastSeg hlastmem
      have hstar : lastSeg = ['*'] := by
        cases s' with
        | nil =>
          refine last_seg_star hsl hne (w := ['/']) ?_ hsuf
          rw [hp, renderPath, List.nil_append, intercalate_single]
          rfl
        | cons b bs =>
          refine last_seg_star hsl hne (w := '/' :: List.intercalate ['/'] (b :: bs) ++ ['/'])
            ?_ hsuf
          rw [hp, renderPath, intercalate_append_single _ (by simp)]
          simp
      subst hstar
      apply wildcardOkSegs_append_star
      intro t ht hstarT
      cases s' with
      | nil => simp at ht
      | cons b bs =>
        have h1 : '*' ∈ List.intercalate ['/'] (b :: bs) := mem_intercalate_of_mem ht hstarT
        have h2 : 1 ≤ (List.intercalate ['/'] (b :: bs)).count '*' := List.count_pos_iff.mpr h1
        have h3 : p.count '*' =
            (List.intercalate ['/'] (b :: bs)).count '*' + 1 := by
          rw [hp, renderPath, intercalate_append_single _ (by simp)]
          rw [List.count_cons, List.count_append, List.count_append]
          simp
        omega

/-- Every canonical path string is the rendering of a valid segment list. -/
theorem canonical_decomp {p : Str} (h : isCanonicalPath p = true) :
    ∃ segs, isValidSegs segs = true ∧ p = renderPath segs := by
  simp only [isCanonicalPath, Bool.and_eq_true] at h
  obtain ⟨⟨⟨⟨htake, hall⟩, hnds⟩, hlastc⟩, hwc⟩ := h
  cases p with
  | nil => simp at htake
  | cons c cs =>
    have hc : c = '/' := by
      have : ([c] : Str) = ['/'] := eq_of_beq htake
      simpa using this
    subst hc
    have hchars : ∀ x ∈ cs, isAllowedPathChar x = true := by
      intro x hx
      exact List.all_eq_true.mp hall x (List.mem_cons_of_mem _ hx)
    have hhead : cs.head? ≠ some '/' := by
      cases cs with
      | nil => simp
      | cons e ts =>
        simp only [noDoubleSlash, Bool.and_eq_true, Bool.not_eq_true'] at hnds
        intro h0
        have he : e = '/' := by simpa using h0
        rw [he] at hnds
        simp at hnds
    have hnds2 : noDoubleSlash cs = true := noDoubleSlash_tail hnds
    have hlast2 : cs.getLast? ≠ some '/' := by
      rcases Bool.or_eq_true_iff.mp hlastc with h1 | h2
      · have : ('/' :: cs : Str) = ['/'] := eq_of_beq h1
        have : cs = [] := by simpa using this
        rw [this]
        simp
      · cases cs with
        | nil => simp
        | cons e ts =>
          intro h0
          rw [Bool.not_eq_true', beq_eq_false_iff_ne] at h2
          exact h2 (by rw [List.getLast?_cons_cons, h0])
    obtain ⟨segs, hplain, heq⟩ := rest_decomp cs.length cs (Nat.le_refl _) hchars hhead hnds2 hlast2
    have hp : ('/' :: cs : Str) = renderPath segs := by rw [renderPath, ← heq]
    have hwor : ('*' ∉ ('/' :: cs : Str)) ∨
        (('/' :: cs : Str).count '*' = 1 ∧ ['/', '*'] <:+ ('/' :: cs : Str)) := by
      rcases Bool.or_eq_true_iff.mp hwc with h1 | h2
      · refine Or.inl ?_
        intro hmem
        rw [Bool.not_eq_true'] at h1
        have h5 : ('/' :: cs : Str).contains '*' = true := List.elem_iff.mpr hmem
        rw [h1] at h5
        exact Bool.false_ne_true h5
      · simp only [Bool.and_eq_true] at h2
        obtain ⟨h3, h4⟩ := h2
        refine Or.inr ⟨by simpa using h3, ?_⟩
        exact List.isSuffixOf_iff_suffix.mp h4
    have hwild := wildcardOk_of_decomp hplain hp hwor
    refine ⟨segs, ?_, hp⟩
    rw [isValidSegs, Bool.and_eq_true]
    refine ⟨List.all_eq_true.mpr ?_, hwild⟩
    intro s hs
    obtain ⟨h1, h2, h3⟩ := hplain s hs
    rw [isValidSeg, Bool.and_eq_true]
    constructor
    · cases s with
      | nil => exact absurd rfl h1
      | cons _ _ => rfl
    · rw [List.all_eq_true]
      intro c hc2
      rw [Bool.and_eq_true, bne_iff_ne]
      exact ⟨h3 c hc2, fun h0 => h2 (h0 ▸ hc2)⟩

/-- C5: for every valid path string `p`, `join_path(split_path(p)) == p`, and
for every valid list of segments (non-empty, allow-listed, slash-free, with
`*` only as a standalone final segment), `split_path(join_path(s)) == s`. -/
theorem C5_split_join_roundtrip :
    (∀ p : Str, isCanonicalPath p = true → (splitPath p).bind joinPath = some p) ∧
    (∀ s : List Str, isValidSegs s = true → (joinPath s).bind splitPath = some s) := by
  constructor
  · intro p hp
    obtain ⟨segs, hv, rfl⟩ := canonical_decomp hp
    rw [splitPath_render hv, Option.some_bind]
    exact joinPath_of_valid hv
  · intro s hs
    rw [joinPath_of_valid hs, Option.some_bind]
    exact splitPath_render hs

/-- Witness for C5 at the concrete path `/a/b` and segments `["a", "b"]`. -/
theorem C5_split_join_roundtrip_witness :
    (splitPath ['/', 'a', '/', 'b']).bind joinPath = some ['/', 'a', '/', 'b'] ∧
    (joinPath [['a'], ['b']]).bind splitPath = some [['a'], ['b']] :=
  ⟨C5_split_join_roundtrip.1 ['/', 'a', '/', 'b'] (by decide),
   C5_split_join_roundtrip.2 [['a'], ['b']] (by decide)⟩

/-! ## HierarchicalStore (src/labdb/database.py)

Documents are embedded with their `path_str`, `created_at` and payload fields;
the random `_id` and the redundant `path` component array (always
`split_path(path_str)`, kept only for backward compatibility) are omitted.
`datetime.now()` is modelled by a monotone counter `clock`.  The GridFS
large-object facility, the local array-file directory and the local cache are
lists of identifiers so that mutation (or its absence) is observable.
`serialize`/`deserialize` inside the store are modelled as the identity on
already-encoded values — the byte-level codec is modelled separately in the
ArraySerializer section — while `cleanup_array_files` releases the external
locator of every array descriptor in a document's data mapping. -/

/-- `__storage_type__` of an array descriptor. -/
inductive StorageType where
  | binary
  | localStorage
  | gridfs
deriving DecidableEq, Repr

/-- A stored (already serialized) JSON-like value: an opaque scalar or an
array descriptor carrying its storage tier and external locator. -/
inductive Val where
  | scalar (n : Int)
  | arrDesc (storage : StorageType) (locator : Nat)
deriving DecidableEq, Repr

/-- A document of the `directories` collection. -/
structure DirDoc where
  pathStr : Str
  createdAt : Nat
  notes : List (Str × Int)
deriving DecidableEq, Repr

/-- A document of the `experiments` collection. -/
structure ExpDoc where
  pathStr : Str
  createdAt : Nat
  data : List (Str × Val)
  notes : List (Str × Int)
deriving DecidableEq, Repr

/-- The whole external state seen by the store: both collections, the GridFS
object ids, the local array files, the cache entries, and the clock. -/
structure DB where
  dirs : List DirDoc
  exps : List ExpDoc
  gridfsObjects : List Nat
  localFiles : List Nat
  cache : List Nat
  clock : Nat
deriving DecidableEq, Repr

/-- The empty database (no documents, fresh clock). -/
def DB.init : DB := ⟨[], [], [], [], [], 0⟩

/-- The root path `"/"`. -/
def rootPath : Str := ['/']

/-- `path_exists`: root always exists, otherwise look in both collections. -/
def pathExists (db : DB) (p : Str) : Bool :=
  p == rootPath || db.dirs.any (fun d => d.pathStr == p) ||
    db.exps.any (fun e => e.pathStr == p)

/-- `dir_exists`: root always exists, otherwise look in `directories`. -/
def dirExists (db : DB) (p : Str) : Bool :=
  p == rootPath || db.dirs.any (fun d => d.pathStr == p)

/-- `path + "/"` unless `path` already ends with a slash (used by the
direct-children regex and by `count_experiments`). -/
def parentSlash (p : Str) : Str :=
  if ['/'].isSuffixOf p then p else p ++ ['/']

/-- The direct-child regex `^<parent>/[^/]+$`: the candidate extends
`parentSlash p` by one nonempty slash-free run. -/
def matchesDirectChild (p cand : Str) : Bool :=
  (parentSlash p).isPrefixOf cand &&
    !(cand.drop (parentSlash p).length).isEmpty &&
    !(cand.drop (parentSlash p).length).contains '/'

/-- Lexicographic strict order on strings by code point (BSON/Python string
comparison, used by the `$gte`/`$lt` range query). -/
def strLt : Str → Str → Bool
  | [], [] => false
  | [], _ :: _ => true
  | _ :: _, [] => false
  | a :: as, b :: bs =>
    if a.toNat < b.toNat then true
    else if b.toNat < a.toNat then false
    else strLt as bs

/-- Lexicographic `≤`. -/
def strLe (a b : Str) : Bool := strLt a b || a == b

/-- `_build_path_prefix_query` as a predicate on a candidate `path_str`:
for the root it matches every document (`{"path_str": {"$ne": None}}`);
otherwise it is `path_str == path` or the ordered range
`prefix <= path_str < prefix[:-1] + chr(ord(prefix[-1]) + 1)`. -/
def pathMatchQuery (path : Str) (cand : Str) : Bool :=
  if path == rootPath then true
  else
    let pre := parentSlash path
    let endPre := match pre.getLast? with
      | some c => pre.dropLast ++ [Char.ofNat (c.toNat + 1)]
      | none => []
    cand == path || (strLe pre cand && strLt cand endPre)

/-- An entry of a `list_dir` result (projection `type`, `path_str`,
`created_at`). -/
inductive DocType where
  | directory
  | experiment
deriving DecidableEq, Repr

/-- Projected document returned by `list_dir`. -/
structure Item where
  type : DocType
  pathStr : Str
  createdAt : Nat
deriving DecidableEq, Repr

/-- `created_at` descending comparison used by `.sort("created_at", -1)`. -/
def byCreatedDesc (a b : Item) : Prop := b.createdAt ≤ a.createdAt

instance : DecidableRel byCreatedDesc := fun a b => Nat.decLe b.createdAt a.createdAt

/-- `list_dir`: fails unless the directory exists; returns the direct children
of both collections, each block sorted by creation time descending, directory
results first (`dir_results + exp_results`). -/
def listDir (db : DB) (path : Str) : Option (List Item) :=
  if ¬ dirExists db path then none
  else
    let dirResults :=
      ((db.dirs.filter (fun d => matchesDirectChild path d.pathStr)).map
        (fun d => Item.mk .directory d.pathStr d.createdAt)).insertionSort byCreatedDesc
    let expResults :=
      ((db.exps.filter (fun e => matchesDirectChild path e.pathStr)).map
        (fun e => Item.mk .experiment e.pathStr e.createdAt)).insertionSort byCreatedDesc
    some (dirResults ++ expResults)

/-- `count_experiments`: number of experiment documents matching the
direct-child regex. -/
def countExperiments (db : DB) (path : Str) : Nat :=
  (db.exps.filter (fun e => matchesDirectChild path e.pathStr)).length

/-- `get_parent_path` from utils.py. -/
def getParentPath (p : Str) : Option Str :=
  if p == rootPath then some rootPath
  else (splitPath p).bind fun segs =>
    if segs.length ≤ 1 then some rootPath
    else joinPath segs.dropLast

/-- `create_dir`: validate, refuse existing paths and the root, require the
parent directory, then insert. -/
def createDir (db : DB) (path : Str) (notes : List (Str × Int)) : Option DB :=
  if ¬ validatePath path then none
  else if pathExists db path then none
  else if path == rootPath then none
  else
    match getParentPath path with
    | none => none
    | some par =>
      if ¬ dirExists db par then none
      else some { db with
        dirs := db.dirs ++ [⟨path, db.clock, notes⟩],
        clock := db.clock + 1 }

/-- Decimal string of a number, as Python `str(n)`. -/
def natStr (n : Nat) : Str := Nat.toDigits 10 n

/-- `f"{path}/{name}" if path != "/" else f"/{name}"` from `create_experiment`. -/
def expPathFor (path expId : Str) : Str :=
  if path ≠ rootPath then path ++ '/' :: expId else '/' :: expId

/-- `create_experiment`: requires the parent directory.  A given (truthy,
i.e. nonempty) name is conflict-checked; otherwise the name is the decimal
string of `count_experiments(path)` and no conflict check is made.  Returns
`(experiment_path, experiment_id)` and the new state. -/
def createExperiment (db : DB) (path : Str) (name : Option Str)
    (data : List (Str × Val)) (notes : List (Str × Int)) :
    Option (Str × Str × DB) :=
  if ¬ dirExists db path then none
  else
    let insertAt : Str → Str → Option (Str × Str × DB) := fun expPath expId =>
      some (expPath, expId, { db with
        exps := db.exps ++ [⟨expPath, db.clock, data, notes⟩],
        clock := db.clock + 1 })
    match name with
    | some (c :: cs) =>
      let expPath := expPathFor path (c :: cs)
      if pathExists db expPath then none
      else insertAt expPath (c :: cs)
    | _ =>
      let expId := natStr (countExperiments db path)
      insertAt (expPathFor path expId) expId

/-- Mongo `$set` on one key of a mapping: overwrite or append. -/
def setKey (m : List (Str × Val)) (key : Str) (v : Val) : List (Str × Val) :=
  if m.any (fun kv => kv.1 == key) then
    m.map (fun kv => if kv.1 == key then (kv.1, v) else kv)
  else m ++ [(key, v)]

/-- `update_one` on the experiments collection: apply `f` to the first
document whose `path_str` matches. -/
def updateOneExp (exps : List ExpDoc) (path : Str) (f : ExpDoc → ExpDoc) :
    List ExpDoc :=
  match exps with
  | [] => []
  | e :: rest =>
    if e.pathStr == path then f e :: rest else e :: updateOneExp rest path f

/-- `add_experiment_data`: `ensure_path_exists` (any document kind!), then
`update_one` setting `data.key` on the experiments collection. -/
def addExperimentData (db : DB) (path : Str) (key : Str) (v : Val) :
    Option DB :=
  if ¬ pathExists db path then none
  else some { db with
    exps := updateOneExp db.exps path (fun e => { e with data := setKey e.data key v }) }

/-- One step of `cleanup_array_files`: release the external locator of an
array descriptor (GridFS delete / local file unlink); other values and
`binary`-tier descriptors are untouched. -/
def cleanupStep (acc : DB) (kv : Str × Val) : DB :=
  match kv.2 with
  | .arrDesc .gridfs locId =>
    { acc with gridfsObjects := acc.gridfsObjects.filter (fun x => x != locId) }
  | .arrDesc .localStorage locId =>
    { acc with localFiles := acc.localFiles.filter (fun x => x != locId) }
  | _ => acc

/-- `cleanup_array_files` over one experiment's data mapping: best-effort
release of every external locator. -/
def cleanupArrayFiles (db : DB) (data : List (Str × Val)) : DB :=
  data.foldl cleanupStep db

/-- `{"experiments": n, "directories": m}` counts. -/
structure Counts where
  directories : Nat
  experiments : Nat
deriving DecidableEq, Repr

def Counts.add (a b : Counts) : Counts :=
  ⟨a.directories + b.directories, a.experiments + b.experiments⟩

/-- `_get_collection_counts` with the same query on both collections. -/
def getCollectionCounts (db : DB) (q : Str → Bool) : Counts :=
  ⟨(db.dirs.filter (fun d => q d.pathStr)).length,
   (db.exps.filter (fun e => q e.pathStr)).length⟩

/-- `get_path_name` from utils.py (`segments[-1] if segments else ""`). -/
def getPathName (p : Str) : Option Str :=
  (splitPath p).map (fun segs => (segs.getLast?).getD [])

/-- `_update_paths`: every document matched by `q` has the first occurrence of
`src` in its `path_str` replaced by `dest` (Python `str.replace(src, dest, 1)`). -/
def replaceFirst (pat rep : Str) : Str → Str
  | [] => if pat.isPrefixOf ([] : Str) then rep else []
  | c :: cs =>
    if pat.isPrefixOf (c :: cs) then rep ++ (c :: cs).drop pat.length
    else c :: replaceFirst pat rep cs

/-- The per-document rewrite a completed `_update_paths` pass applies. -/
def rewriteDir (q : Str → Bool) (src dest : Str) (d : DirDoc) : DirDoc :=
  if q d.pathStr then { d with pathStr := replaceFirst src dest d.pathStr } else d

/-- The per-document rewrite a completed `_update_paths` pass applies. -/
def rewriteExp (q : Str → Bool) (src dest : Str) (e : ExpDoc) : ExpDoc :=
  if q e.pathStr then { e with pathStr := replaceFirst src dest e.pathStr } else e

/-- `_update_paths` over the directories collection: matched documents are
rewritten one at a time, and before each write `split_path(new_path_str)` is
evaluated — if it fails (the rewritten path is invalid), the `ValueError`
aborts the pass right there: the flag turns `false` and the current and
remaining documents keep their old paths, while the earlier writes stand. -/
def updatePathsDirs : List DirDoc → (Str → Bool) → Str → Str → List DirDoc × Bool
  | [], _, _, _ => ([], true)
  | d :: rest, q, src, dest =>
    if q d.pathStr then
      if (splitPath (replaceFirst src dest d.pathStr)).isSome then
        ({ d with pathStr := replaceFirst src dest d.pathStr } ::
            (updatePathsDirs rest q src dest).1,
          (updatePathsDirs rest q src dest).2)
      else (d :: rest, false)
    else
      (d :: (updatePathsDirs rest q src dest).1, (updatePathsDirs rest q src dest).2)

/-- `_update_paths` over the experiments collection (same loop). -/
def updatePathsExps : List ExpDoc → (Str → Bool) → Str → Str → List ExpDoc × Bool
  | [], _, _, _ => ([], true)
  | e :: rest, q, src, dest =>
    if q e.pathStr then
      if (splitPath (replaceFirst src dest e.pathStr)).isSome then
        ({ e with pathStr := replaceFirst src dest e.pathStr } ::
            (updatePathsExps rest q src dest).1,
          (updatePathsExps rest q src dest).2)
      else (e :: rest, false)
    else
      (e :: (updatePathsExps rest q src dest).1, (updatePathsExps rest q src dest).2)

mutual

/-- `delete(path, dry_run)`.  A path ending in `/*` deletes every direct child
of its parent (recursively re-invoking `delete`); otherwise the prefix-range
query selects the path and all descendants, experiment payloads are cleaned
up, and both collections are purged.  `fuel` bounds the recursion depth of the
wildcard form; exhaustion is reported as failure (`none`). -/
def delete (fuel : Nat) (db : DB) (path : Str) (dryRun : Bool) :
    Option (Option Counts × DB) :=
  match fuel with
  | 0 => none
  | fuel + 1 =>
    if ['/', '*'].isSuffixOf path then
      if path.dropLast.dropLast.contains '*' then none
      else
        let dirPath := path.dropLast.dropLast
        if ¬ dirExists db dirPath then none
        else
          match listDir db dirPath with
          | none => none
          | some items =>
            if dryRun then
              match deleteItemsDry fuel db items with
              | none => none
              | some cnt => some (some cnt, db)
            else
              match deleteItemsReal fuel db items with
              | none => none
              | some db' => some (none, db')
    else
      let q := pathMatchQuery path
      if dryRun then some (some (getCollectionCounts db q), db)
      else
        let matchedData := (db.exps.filter (fun e => q e.pathStr)).map (fun e => e.data)
        let db1 := matchedData.foldl cleanupArrayFiles db
        some (none, { db1 with
          exps := db1.exps.filter (fun e => !q e.pathStr),
          dirs := db1.dirs.filter (fun d => !q d.pathStr) })

/-- The `dry_run` accumulation loop of the wildcard branch of `delete`.
`fuel` steps down at every element so the whole group is structurally
recursive (kernel-reducible); any fuel above the recursion depth times the
store size gives the Python semantics. -/
def deleteItemsDry (fuel : Nat) (db : DB) (items : List Item) : Option Counts :=
  match items with
  | [] => some ⟨0, 0⟩
  | it :: rest =>
    match fuel with
    | 0 => none
    | fuel + 1 =>
      match delete fuel db it.pathStr true with
      | some (some cnt, _) =>
        match deleteItemsDry fuel db rest with
        | some acc => some (cnt.add acc)
        | none => none
      | _ => none

/-- The mutating loop of the wildcard branch of `delete`. -/
def deleteItemsReal (fuel : Nat) (db : DB) (items : List Item) : Option DB :=
  match items with
  | [] => some db
  | it :: rest =>
    match fuel with
    | 0 => none
    | fuel + 1 =>
      match delete fuel db it.pathStr false with
      | some (_, db') => deleteItemsReal fuel db' rest
      | none => none

end

mutual

/-- `move(src, dest, dry_run)`.  Refuses the root.  A `src` ending in `/*`
requires `dest` to be an existing directory and relocates every direct child
of `src`'s parent to `dest/<child-name>`; otherwise every document matched by
the prefix-range query has the `src` prefix of its `path_str` replaced by
`dest`, the directories pass running before the experiments pass, and a
rewritten path that `split_path` rejects makes `_update_paths` raise
`ValueError` mid-pass (`none`, the exception escaping `move`). -/
def move (fuel : Nat) (db : DB) (src dest : Str) (dryRun : Bool) :
    Option (Option Counts × DB) :=
  match fuel with
  | 0 => none
  | fuel + 1 =>
    if src == rootPath then none
    else if ['/', '*'].isSuffixOf src then
      if src.dropLast.dropLast.contains '*' then none
      else
        let srcDir := src.dropLast.dropLast
        if ¬ dirExists db srcDir then none
        else if ¬ dirExists db dest then none
        else
          match listDir db srcDir with
          | none => none
          | some items =>
            if dryRun then
              match moveItemsDry fuel db items dest with
              | none => none
              | some cnt => some (some cnt, db)
            else
              match moveItemsReal fuel db items dest with
              | none => none
              | some db' => some (none, db')
    else
      let q := pathMatchQuery src
      if dryRun then some (some (getCollectionCounts db q), db)
      else
        if (updatePathsDirs db.dirs q src dest).2 then
          if (updatePathsExps db.exps q src dest).2 then
            some (none, { db with
              dirs := (updatePathsDirs db.dirs q src dest).1,
              exps := (updatePathsExps db.exps q src dest).1 })
          else none
        else none

/-- The `dry_run` accumulation loop of the wildcard branch of `move`
(fuel steps down per element, as in `deleteItemsDry`). -/
def moveItemsDry (fuel : Nat) (db : DB) (items : List Item) (dest : Str) :
    Option Counts :=
  match items with
  | [] => some ⟨0, 0⟩
  | it :: rest =>
    match fuel with
    | 0 => none
    | fuel + 1 =>
      match getPathName it.pathStr with
      | none => none
      | some name =>
        match move fuel db it.pathStr (dest ++ '/' :: name) true with
        | some (some cnt, _) =>
          match moveItemsDry fuel db rest dest with
          | some acc => some (cnt.add acc)
          | none => none
        | _ => none

/-- The mutating loop of the wildcard branch of `move`. -/
def moveItemsReal (fuel : Nat) (db : DB) (items : List Item) (dest : Str) :
    Option DB :=
  match items with
  | [] => some db
  | it :: rest =>
    match fuel with
    | 0 => none
    | fuel + 1 =>
      match getPathName it.pathStr with
      | none => none
      | some name =>
        match move fuel db it.pathStr (dest ++ '/' :: name) false with
        | some (_, db') => moveItemsReal fuel db' rest dest
        | none => none

end

/-- All stored path strings, directories first (documents of both collections). -/
def docPaths (db : DB) : List Str :=
  db.dirs.map (fun d => d.pathStr) ++ db.exps.map (fun e => e.pathStr)

/-! ### C10: auto-allocated experiment names -/

/-- Concrete state with directory `/a` (created at 0) and an experiment
`/a/1` (created at 1): the auto-allocated name collides. -/
def dbC10 : DB :=
  ⟨[⟨['/', 'a'], 0, []⟩], [⟨['/', 'a', '/', '1'], 1, [], []⟩], [], [], [], 2⟩

/-- A store operation of the kind quantified over by C2. -/
inductive Op where
  | createDirOp (path : Str)
  | createExpOp (dir : Str) (name : Option Str)
  | moveOp (src dest : Str)
  | deleteOp (path : Str)
deriving DecidableEq, Repr

/-- Fuel that certainly covers the wildcard recursion of one operation. -/
def fuelFor (db : DB) : Nat := db.dirs.length + db.exps.length + 1

/-- Run one operation; a raised exception (`none`) leaves the store as it was. -/
def runOp (db : DB) : Op → DB
  | .createDirOp p =>
    match createDir db p [] with
    | some db' => db'
    | none => db
  | .createExpOp dir name =>
    match createExperiment db dir name [] [] with
    | some (_, _, db') => db'
    | none => db
  | .moveOp src dest =>
    match move (fuelFor db) db src dest false with
    | some (_, db') => db'
    | none => db
  | .deleteOp p =>
    match delete (fuelFor db) db p false with
    | some (_, db') => db'
    | none => db

/-- Run a sequence of operations. -/
def runOps (db : DB) (ops : List Op) : DB := ops.foldl runOp db

/-- C2 counterexample: `create_dir "/a"`, `create_experiment "/a" name="1"`,
then `create_experiment "/a"` with no name.  The auto name is the count of
direct experiment children (`1`), inserted without a conflict check, so two
documents end up with path `/a/1`: the claimed invariant fails. -/
theorem C2_unique_paths_cex :
    ¬ (docPaths (runOps DB.init
        [Op.createDirOp ['/', 'a'],
         Op.createExpOp ['/', 'a'] (some ['1']),
         Op.createExpOp ['/', 'a'] none])).Nodup := by decide

/-! ### C8: dry runs are pure reads -/

theorem delete_dry_frame (fuel : Nat) (db : DB) (path : Str)
    (r : Option Counts × DB) (h : delete fuel db path true = some r) : r.2 = db := by
  cases fuel with
  | zero => simp [delete] at h
  | succ fuel =>
    simp only [delete] at h
    split at h
    · split at h
      · exact absurd h (by simp)
      · split at h
        · exact absurd h (by simp)
        · split at h
          · exact absurd h (by simp)
          · rw [if_pos trivial] at h
            split at h
            · exact absurd h (by simp)
            · cases h; rfl
    · rw [if_pos trivial] at h
      cases h; rfl

theorem move_dry_frame (fuel : Nat) (db : DB) (src dest : Str)
    (r : Option Counts × DB) (h : move fuel db src dest true = some r) : r.2 = db := by
  cases fuel with
  | zero => simp [move] at h
  | succ fuel =>
    simp only [move] at h
    split at h
    · exact absurd h (by simp)
    · split at h
      · split at h
        · exact absurd h (by simp)
        · split at h
          · exact absurd h (by simp)
          · split at h
            · exact absurd h (by simp)
            · split at h
              · exact absurd h (by simp)
              · rw [if_pos trivial] at h
                split at h
                · exact absurd h (by simp)
                · cases h; rfl
      · rw [if_pos trivial] at h
        cases h; rfl

/-- C8: with `dry_run=True`, both `delete` and `move` leave the whole external
state — both document collections, the GridFS objects, the local array files
and the cache — untouched, and for a non-wildcard path they return exactly the
counts of matched directory and experiment documents. -/
theorem C8_dry_run_pure :
    (∀ fuel db path r, delete fuel db path true = some r → r.2 = db) ∧
    (∀ fuel db src dest r, move fuel db src dest true = some r → r.2 = db) ∧
    (∀ fuel db path, ¬ ['/', '*'].isSuffixOf path = true →
      delete (fuel + 1) db path true =
        some (some (getCollectionCounts db (pathMatchQuery path)), db)) ∧
    (∀ fuel db src dest, (src == rootPath) = false →
      ¬ ['/', '*'].isSuffixOf src = true →
      move (fuel + 1) db src dest true =
        some (some (getCollectionCounts db (pathMatchQuery src)), db)) := by
  refine ⟨delete_dry_frame, move_dry_frame, ?_, ?_⟩
  · intro fuel db path hnw
    simp only [delete]
    rw [if_neg hnw, if_pos trivial]
  · intro fuel db src dest hroot hnw
    simp only [move]
    rw [if_neg (by rw [hroot]; exact Bool.false_ne_true), if_neg hnw, if_pos trivial]

/-- Witness for C8 on `dbC10`: a wildcard dry delete, a dry move, and the two
non-wildcard count forms, all leaving the state equal to `dbC10`. -/
theorem C8_dry_run_pure_witness :
    ((delete 10 dbC10 ['/', 'a', '/', '*'] true).map (fun r => r.2) = some dbC10) ∧
    ((move 10 dbC10 ['/', 'a'] ['/', 'b'] true).map (fun r => r.2) = some dbC10) ∧
    delete 10 dbC10 ['/', 'a'] true =
      some (some (getCollectionCounts dbC10 (pathMatchQuery ['/', 'a'])), dbC10) ∧
    move 10 dbC10 ['/', 'a'] ['/', 'b'] true =
      some (some (getCollectionCounts dbC10 (pathMatchQuery ['/', 'a'])), dbC10) := by
  refine ⟨?_, ?_, ?_, ?_⟩
  · have hr : delete 10 dbC10 ['/', 'a', '/', '*'] true = some (some ⟨0, 1⟩, dbC10) := by
      decide
    rw [hr, Option.map_some', C8_dry_run_pure.1 10 dbC10 ['/', 'a', '/', '*'] _ hr]
  · have hr : move 10 dbC10 ['/', 'a'] ['/', 'b'] true =
        some (some (getCollectionCounts dbC10 (pathMatchQuery ['/', 'a'])), dbC10) := by
      decide
    rw [hr, Option.map_some', C8_dry_run_pure.2.1 10 dbC10 ['/', 'a'] ['/', 'b'] _ hr]
  · exact C8_dry_run_pure.2.2.1 9 dbC10 ['/', 'a'] (by decide)
  · exact C8_dry_run_pure.2.2.2 9 dbC10 ['/', 'a'] ['/', 'b'] (by decide) (by decide)

/-! ### C4: add_experiment_data on a non-experiment path -/

theorem updateOneExp_no_match (exps : List ExpDoc) (p : Str)
    (f : ExpDoc → ExpDoc) (h : ∀ e ∈ exps, e.pathStr ≠ p) :
    updateOneExp exps p f = exps := by
  induction exps with
  | nil => rfl
  | cons e rest ih =>
    rw [updateOneExp, if_neg ?hne]
    case hne =>
      intro hbeq
      exact h e (by simp) (eq_of_beq hbeq)
    rw [ih (fun e' he' => h e' (by simp [he']))]

/-- Concrete state with only the directory `/a`. -/
def dbC4 : DB := ⟨[⟨['/', 'a'], 0, []⟩], [], [], [], [], 1⟩

/-- C4 counterexample: at a path where a directory (and no experiment) exists,
`add_experiment_data` does NOT fail — it succeeds and changes nothing
(`ensure_path_exists` accepts any document kind and `update_one` matches no
experiment). -/
theorem C4_add_data_cex :
    addExperimentData dbC4 ['/', 'a'] ['k'] (Val.scalar 0) = some dbC4 := by decide

/-- C4 amended: `add_experiment_data` fails (with the not-found error) iff the
path exists nowhere, leaving the state unchanged; at a path held only by a
directory it succeeds while modifying no document of either collection. -/
theorem C4_add_data_amended (db : DB) (p key : Str) (v : Val) :
    (pathExists db p = false → addExperimentData db p key v = none) ∧
    (pathExists db p = true → (∀ e ∈ db.exps, e.pathStr ≠ p) →
      addExperimentData db p key v = some db) := by
  constructor
  · intro hne
    rw [addExperimentData, if_pos (by rw [hne]; exact Bool.false_ne_true)]
  · intro hex hnoexp
    rw [addExperimentData, if_neg (by rw [hex]; exact fun h => h rfl),
      updateOneExp_no_match db.exps p _ hnoexp]

/-- Witness for C4 at `dbC4`: `/nope` exists nowhere and fails; `/a` holds a
directory only and the update succeeds without touching anything. -/
theorem C4_add_data_amended_witness :
    addExperimentData dbC4 ['/', 'n'] ['k'] (Val.scalar 0) = none ∧
    addExperimentData dbC4 ['/', 'a'] ['k'] (Val.scalar 0) = some dbC4 :=
  ⟨(C4_add_data_amended dbC4 ['/', 'n'] ['k'] (Val.scalar 0)).1 (by decide),
   (C4_add_data_amended dbC4 ['/', 'a'] ['k'] (Val.scalar 0)).2 (by decide) (by decide)⟩

/-! ### The ordered range query matches exactly the subtree -/

theorem char_toNat_inj {a b : Char} (h : a.toNat = b.toNat) : a = b := by
  have h2 := congrArg Char.ofNat h
  rwa [Char.ofNat_toNat, Char.ofNat_toNat] at h2

theorem strLt_cons_same (d : Char) (x y : Str) : strLt (d :: x) (d :: y) = strLt x y := by
  simp [strLt]

theorem beq_cons_same (d : Char) (x y : Str) : ((d :: x : Str) == d :: y) = (x == y) := by
  rcases h : (x == y) with _ | _
  · rw [beq_eq_false_iff_ne] at h ⊢
    intro h2
    exact h (by injection h2)
  · rw [eq_of_beq h]
    exact beq_self_eq_true _

theorem strLe_cons_same (d : Char) (x y : Str) : strLe (d :: x) (d :: y) = strLe x y := by
  rw [strLe, strLe, strLt_cons_same, beq_cons_same]

/-- The key fact behind `_build_path_prefix_query`: the lexicographic range
`[q ++ "/", q ++ "0")` (`'0'` is the successor of `'/'`) contains exactly the
strings with `q ++ "/"` as a prefix. -/
theorem lex_range_iff : ∀ (q cand : Str),
    (strLe (q ++ ['/']) cand && strLt cand (q ++ ['0'])) = true ↔
      (q ++ ['/']) <+: cand := by
  have c47 : ('/' : Char).toNat = 47 := by decide
  have c48 : ('0' : Char).toNat = 48 := by decide
  intro q
  induction q with
  | nil =>
    intro cand
    cases cand with
    | nil => simp [strLe, strLt]
    | cons a as =>
      by_cases ha : a = '/'
      · subst ha
        simp only [List.nil_append]
        constructor
        · intro _
          exact List.cons_prefix_cons.mpr ⟨rfl, List.nil_prefix⟩
        · intro _
          rw [Bool.and_eq_true]
          refine ⟨?_, ?_⟩
          · rw [show (['/'] : Str) = '/' :: [] from rfl, strLe_cons_same]
            cases as <;> rfl
          · rfl
      · have hne : a.toNat ≠ 47 := fun h => ha (char_toNat_inj (h.trans c47.symm))
        simp only [List.nil_append]
        constructor
        · intro h
          exfalso
          rw [Bool.and_eq_true] at h
          obtain ⟨h1, h2⟩ := h
          rcases Nat.lt_or_ge a.toNat 47 with hlt | hge
          · rw [strLe, Bool.or_eq_true] at h1
            rcases h1 with h1 | h1
            · simp only [strLt] at h1
              rw [if_neg (by rw [c47]; omega), if_pos (by rw [c47]; omega)] at h1
              exact Bool.false_ne_true h1
            · exact ha (by injection (eq_of_beq h1).symm)
          · have hgt : 47 < a.toNat := by omega
            simp only [strLt] at h2
            rw [if_neg (by rw [c48]; omega)] at h2
            by_cases h48 : a.toNat = 48
            · rw [if_neg (by rw [c48]; omega)] at h2
              exact Bool.false_ne_true
                ((show strLt as [] = false from by cases as <;> rfl) ▸ h2)
            · rw [if_pos (by rw [c48]; omega)] at h2
              exact Bool.false_ne_true h2
        · intro h
          exact absurd (List.cons_prefix_cons.mp h).1 (Ne.symm ha)
  | cons d q' ih =>
    intro cand
    cases cand with
    | nil =>
      simp only [List.cons_append]
      constructor
      · intro h
        rw [Bool.and_eq_true] at h
        have h1 := h.1
        rw [strLe, Bool.or_eq_true] at h1
        exfalso
        rcases h1 with h1 | h1
        · exact Bool.false_ne_true
            ((show strLt (d :: (q' ++ ['/'])) [] = false from rfl) ▸ h1)
        · exact List.cons_ne_nil _ _ (eq_of_beq h1)
      · intro h
        exfalso
        have h2 := h.length_le
        simp at h2
    | cons a as =>
      by_cases had : a = d
      · subst had
        simp only [List.cons_append, strLe_cons_same, strLt_cons_same]
        rw [show (strLe (q' ++ ['/']) as && strLt as (q' ++ ['0'])) = true ↔
            (q' ++ ['/']) <+: as from ih as]
        constructor
        · intro h
          exact List.cons_prefix_cons.mpr ⟨rfl, h⟩
        · intro h
          exact (List.cons_prefix_cons.mp h).2
      · have hne : a.toNat ≠ d.toNat := fun h => had (char_toNat_inj h)
        simp only [List.cons_append]
        constructor
        · intro h
          exfalso
          rw [Bool.and_eq_true] at h
          obtain ⟨h1, h2⟩ := h
          rcases Nat.lt_or_ge a.toNat d.toNat with hlt | hge
          · rw [strLe, Bool.or_eq_true] at h1
            rcases h1 with h1 | h1
            · simp only [strLt] at h1
              rw [if_neg (by omega), if_pos (by omega)] at h1
              exact Bool.false_ne_true h1
            · exact had (by injection (eq_of_beq h1).symm)
          · have hgt : d.toNat < a.toNat := by omega
            simp only [strLt] at h2
            rw [if_neg (by omega), if_pos (by omega)] at h2
            exact Bool.false_ne_true h2
        · intro h
          exact absurd (List.cons_prefix_cons.mp h).1 (fun hh => had hh.symm)

/-- `_build_path_prefix_query` matches exactly the document itself and its
descendants: for a non-root path that does not end in `/`, a candidate matches
iff it equals `path` or extends `path ++ "/"`. -/
theorem pathMatchQuery_iff {path cand : Str} (hroot : (path == rootPath) = false)
    (hnsl : (['/'].isSuffixOf path) = false) :
    pathMatchQuery path cand = true ↔ cand = path ∨ (path ++ ['/']) <+: cand := by
  rw [pathMatchQuery, if_neg (by rw [hroot]; exact Bool.false_ne_true)]
  have hpre : parentSlash path = path ++ ['/'] := by
    rw [parentSlash, if_neg (by rw [hnsl]; exact Bool.false_ne_true)]
  simp only [hpre, List.getLast?_concat, List.dropLast_concat]
  rw [show (path ++ [Char.ofNat ('/'.toNat + 1)] : Str) = path ++ ['0'] from by
    rw [show Char.ofNat ('/'.toNat + 1) = '0' from by decide]]
  rw [Bool.or_eq_true]
  constructor
  · intro h
    rcases h with h | h
    · exact Or.inl (eq_of_beq h)
    · exact Or.inr ((lex_range_iff path cand).mp h)
  · intro h
    rcases h with h | h
    · exact Or.inl (by rw [h]; exact beq_self_eq_true _)
    · exact Or.inr ((lex_range_iff path cand).mpr h)

/-! ### C7: non-wildcard move rewrites the `src` prefix -/

/-- Membership of `q` in the subtree rooted at `root`: `q` is `root` itself or
extends `root ++ "/"`.  This is the intended meaning of "`src` or
`src`-prefixed" in the spec. -/
def inSubtree (root q : Str) : Bool := q == root || (root ++ ['/']).isPrefixOf q

theorem inSubtree_iff {root q : Str} :
    inSubtree root q = true ↔ q = root ∨ (root ++ ['/']) <+: q := by
  rw [inSubtree, Bool.or_eq_true, List.isPrefixOf_iff_prefix, beq_iff_eq]

theorem pathMatchQuery_eq_inSubtree {path cand : Str}
    (hroot : (path == rootPath) = false) (hnsl : (['/'].isSuffixOf path) = false) :
    pathMatchQuery path cand = inSubtree path cand := by
  rcases h : inSubtree path cand with _ | _
  · rcases h2 : pathMatchQuery path cand with _ | _
    · rfl
    · exact absurd (inSubtree_iff.mpr ((pathMatchQuery_iff hroot hnsl).mp h2))
        (by rw [h]; exact Bool.false_ne_true)
  · exact (pathMatchQuery_iff hroot hnsl).mpr (inSubtree_iff.mp h)

theorem replaceFirst_of_isPrefixOf {pat rep s : Str} (h : pat.isPrefixOf s = true) :
    replaceFirst pat rep s = rep ++ s.drop pat.length := by
  cases s with
  | nil =>
    rw [replaceFirst, if_pos h, List.drop_nil, List.append_nil]
  | cons c cs =>
    rw [replaceFirst, if_pos h]

theorem eq_append_drop_of_isPrefixOf {pat s : Str} (h : pat.isPrefixOf s = true) :
    s = pat ++ s.drop pat.length := by
  obtain ⟨t, ht⟩ := List.isPrefixOf_iff_prefix.mp h
  rw [← ht, List.drop_left]

/-- When every matched document's rewritten path is accepted by `split_path`,
the `_update_paths` pass over the directories completes: no abort, and every
matched document rewritten. -/
theorem updatePathsDirs_of_valid {q : Str → Bool} {src dest : Str} :
    ∀ {dirs : List DirDoc},
    (∀ d ∈ dirs, q d.pathStr = true →
      (splitPath (replaceFirst src dest d.pathStr)).isSome = true) →
    updatePathsDirs dirs q src dest = (dirs.map (rewriteDir q src dest), true) := by
  intro dirs
  induction dirs with
  | nil => intro _; rfl
  | cons d rest ih =>
    intro h
    have hrest := ih (fun x hx => h x (List.mem_cons_of_mem d hx))
    rw [updatePathsDirs]
    by_cases hq : q d.pathStr = true
    · rw [if_pos hq, if_pos (h d (List.mem_cons_self d rest) hq), hrest]
      simp [rewriteDir, hq]
    · rw [if_neg hq, hrest]
      simp [rewriteDir, hq]

/-- Same for the experiments collection. -/
theorem updatePathsExps_of_valid {q : Str → Bool} {src dest : Str} :
    ∀ {exps : List ExpDoc},
    (∀ e ∈ exps, q e.pathStr = true →
      (splitPath (replaceFirst src dest e.pathStr)).isSome = true) →
    updatePathsExps exps q src dest = (exps.map (rewriteExp q src dest), true) := by
  intro exps
  induction exps with
  | nil => intro _; rfl
  | cons e rest ih =>
    intro h
    have hrest := ih (fun x hx => h x (List.mem_cons_of_mem e hx))
    rw [updatePathsExps]
    by_cases hq : q e.pathStr = true
    · rw [if_pos hq, if_pos (h e (List.mem_cons_self e rest) hq), hrest]
      simp [rewriteExp, hq]
    · rw [if_neg hq, hrest]
      simp [rewriteExp, hq]

/-- Conversely, a completed pass (flag `true`) is exactly the total rewrite. -/
theorem updatePathsDirs_eq_of_flag {q : Str → Bool} {src dest : Str} :
    ∀ {dirs : List DirDoc}, (updatePathsDirs dirs q src dest).2 = true →
    updatePathsDirs dirs q src dest = (dirs.map (rewriteDir q src dest), true) := by
  intro dirs
  induction dirs with
  | nil => intro _; rfl
  | cons d rest ih =>
    intro h
    rw [updatePathsDirs] at h ⊢
    by_cases hq : q d.pathStr = true
    · rw [if_pos hq] at h ⊢
      by_cases hsp : (splitPath (replaceFirst src dest d.pathStr)).isSome = true
      · rw [if_pos hsp] at h ⊢
        have h2 : (updatePathsDirs rest q src dest).2 = true := h
        rw [ih h2]
        simp [rewriteDir, hq]
      · rw [if_neg hsp] at h
        exact absurd h (by simp)
    · rw [if_neg hq] at h ⊢
      have h2 : (updatePathsDirs rest q src dest).2 = true := h
      rw [ih h2]
      simp [rewriteDir, hq]

/-- Same for the experiments collection. -/
theorem updatePathsExps_eq_of_flag {q : Str → Bool} {src dest : Str} :
    ∀ {exps : List ExpDoc}, (updatePathsExps exps q src dest).2 = true →
    updatePathsExps exps q src dest = (exps.map (rewriteExp q src dest), true) := by
  intro exps
  induction exps with
  | nil => intro _; rfl
  | cons e rest ih =>
    intro h
    rw [updatePathsExps] at h ⊢
    by_cases hq : q e.pathStr = true
    · rw [if_pos hq] at h ⊢
      by_cases hsp : (splitPath (replaceFirst src dest e.pathStr)).isSome = true
      · rw [if_pos hsp] at h ⊢
        have h2 : (updatePathsExps rest q src dest).2 = true := h
        rw [ih h2]
        simp [rewriteExp, hq]
      · rw [if_neg hsp] at h
        exact absurd h (by simp)
    · rw [if_neg hq] at h ⊢
      have h2 : (updatePathsExps rest q src dest).2 = true := h
      rw [ih h2]
      simp [rewriteExp, hq]

/-- The completed path rewriting of `move` acts on all stored path strings at
once. -/
theorem updatePaths_docPaths (db : DB) (q : Str → Bool) (src dest : Str) :
    docPaths { db with
      dirs := db.dirs.map (rewriteDir q src dest),
      exps := db.exps.map (rewriteExp q src dest) } =
    (docPaths db).map (fun p => if q p then replaceFirst src dest p else p) := by
  simp only [docPaths, List.map_map, List.map_append]
  congr 1
  · apply List.map_congr_left
    intro d _
    by_cases h : q d.pathStr
    · simp [Function.comp, rewriteDir, h]
    · simp [Function.comp, rewriteDir, h]
  · apply List.map_congr_left
    intro e _
    by_cases h : q e.pathStr
    · simp [Function.comp, rewriteExp, h]
    · simp [Function.comp, rewriteExp, h]

/-- The non-wildcard branch of `move` in closed form, when both
`_update_paths` passes complete. -/
theorem move_nonwildcard (fuel : Nat) (db : DB) (src dest : Str)
    (hroot : (src == rootPath) = false)
    (hnw : (['/', '*'].isSuffixOf src) = false)
    (hvd : (updatePathsDirs db.dirs (pathMatchQuery src) src dest).2 = true)
    (hve : (updatePathsExps db.exps (pathMatchQuery src) src dest).2 = true) :
    move (fuel + 1) db src dest false =
      some (none, { db with
        dirs := db.dirs.map (rewriteDir (pathMatchQuery src) src dest),
        exps := db.exps.map (rewriteExp (pathMatchQuery src) src dest) }) := by
  simp only [move]
  rw [if_neg (by rw [hroot]; exact Bool.false_ne_true),
    if_neg (by rw [hnw]; exact Bool.false_ne_true)]
  rw [if_neg Bool.false_ne_true, if_pos hvd, if_pos hve,
    updatePathsDirs_eq_of_flag hvd, updatePathsExps_eq_of_flag hve]

/-- A successful non-wildcard `move` can only be the completed total
rewrite. -/
theorem move_nonwildcard_success {fuel : Nat} {db : DB} {src dest : Str}
    {r : Option Counts × DB}
    (hroot : (src == rootPath) = false)
    (hnw : (['/', '*'].isSuffixOf src) = false)
    (heq : move (fuel + 1) db src dest false = some r) :
    r = (none, { db with
      dirs := db.dirs.map (rewriteDir (pathMatchQuery src) src dest),
      exps := db.exps.map (rewriteExp (pathMatchQuery src) src dest) }) := by
  simp only [move] at heq
  rw [if_neg (by rw [hroot]; exact Bool.false_ne_true),
    if_neg (by rw [hnw]; exact Bool.false_ne_true),
    if_neg Bool.false_ne_true] at heq
  by_cases hvd : (updatePathsDirs db.dirs (pathMatchQuery src) src dest).2 = true
  · rw [if_pos hvd] at heq
    by_cases hve : (updatePathsExps db.exps (pathMatchQuery src) src dest).2 = true
    · rw [if_pos hve, updatePathsDirs_eq_of_flag hvd,
        updatePathsExps_eq_of_flag hve] at heq
      exact (Option.some_inj.mp heq).symm
    · rw [if_neg hve] at heq
      exact absurd heq (by simp)
  · rw [if_neg hvd] at heq
    exact absurd heq (by simp)

/-- If two subtrees share a member, one root lies in the other's subtree. -/
theorem subtree_overlap {x y q : Str} (hx : inSubtree x q = true)
    (hy : inSubtree y q = true) :
    inSubtree x y = true ∨ inSubtree y x = true := by
  rcases inSubtree_iff.mp hx with rfl | hx2
  · exact Or.inr hy
  · rcases inSubtree_iff.mp hy with rfl | hy2
    · exact Or.inl (inSubtree_iff.mpr (Or.inr hx2))
    · rcases List.prefix_or_prefix_of_prefix hx2 hy2 with hp | hp
      · obtain ⟨t, ht⟩ := hp
        rcases List.eq_nil_or_concat t with rfl | ⟨t0, z, rfl⟩
        · rw [List.append_nil] at ht
          exact Or.inl (inSubtree_iff.mpr
            (Or.inl (List.append_cancel_right ht).symm))
        · rw [List.concat_eq_append] at ht
          have hspec2 : ((x ++ ['/']) ++ t0) ++ [z] = y ++ ['/'] := by
            rw [← ht]
            simp [List.append_assoc]
          have hz : z = '/' := by
            have h1 := List.getLast?_concat (a := z) ((x ++ ['/']) ++ t0)
            rw [hspec2, List.getLast?_concat] at h1
            exact (Option.some_inj.mp h1).symm
          subst hz
          exact Or.inl (inSubtree_iff.mpr
            (Or.inr ⟨t0, by rw [List.append_cancel_right hspec2]⟩))
      · obtain ⟨t, ht⟩ := hp
        rcases List.eq_nil_or_concat t with rfl | ⟨t0, z, rfl⟩
        · rw [List.append_nil] at ht
          exact Or.inl (inSubtree_iff.mpr (Or.inl (List.append_cancel_right ht)))
        · rw [List.concat_eq_append] at ht
          have hspec2 : ((y ++ ['/']) ++ t0) ++ [z] = x ++ ['/'] := by
            rw [← ht]
            simp [List.append_assoc]
          have hz : z = '/' := by
            have h1 := List.getLast?_concat (a := z) ((y ++ ['/']) ++ t0)
            rw [hspec2, List.getLast?_concat] at h1
            exact (Option.some_inj.mp h1).symm
          subst hz
          exact Or.inr (inSubtree_iff.mpr
            (Or.inr ⟨t0, by rw [List.append_cancel_right hspec2]⟩))

/-- C7 counterexample: with a single directory `/a`, `move("/a", "/a/b")`
succeeds and leaves a document at `/a/b`, which is still `src`-prefixed: the
unrestricted claim "no document retains a path prefixed by src" is false when
`dest` lies inside the `src` subtree. -/
theorem C7_move_prefix_cex :
    (move 10 dbC4 ['/', 'a'] ['/', 'a', '/', 'b'] false).map (fun r => docPaths r.2) =
      some [['/', 'a', '/', 'b']] ∧
    inSubtree ['/', 'a'] ['/', 'a', '/', 'b'] = true := by decide

/-- C7 amended: for a non-root, non-wildcard, slashless-tail `src`, provided
`split_path` accepts every rewritten path (otherwise `_update_paths` raises
`ValueError` and the move aborts), the non-wildcard `move` rewrites exactly
the documents at or below `src`, replacing the `src` prefix by `dest` and
keeping each relative suffix; and whenever neither of `src`, `dest` lies in
the other's subtree, no document retains a path at or below `src`
afterwards. -/
theorem C7_move_prefix_rewrite (fuel : Nat) (db : DB) (src dest : Str)
    (hroot : (src == rootPath) = false)
    (hnw : (['/', '*'].isSuffixOf src) = false)
    (hnsl : (['/'].isSuffixOf src) = false)
    (hvalid : ∀ p ∈ docPaths db, inSubtree src p = true →
      (splitPath (replaceFirst src dest p)).isSome = true) :
    ∃ db', move (fuel + 1) db src dest false = some (none, db') ∧
      docPaths db' = (docPaths db).map
        (fun p => if inSubtree src p then dest ++ p.drop src.length else p) ∧
      (inSubtree src dest = false → inSubtree dest src = false →
        ∀ p' ∈ docPaths db', inSubtree src p' = false) := by
  have hdvalid : ∀ d ∈ db.dirs, pathMatchQuery src d.pathStr = true →
      (splitPath (replaceFirst src dest d.pathStr)).isSome = true := by
    intro d hd hq
    rw [pathMatchQuery_eq_inSubtree hroot hnsl] at hq
    exact hvalid d.pathStr
      (List.mem_append_left _ (List.mem_map_of_mem _ hd)) hq
  have hevalid : ∀ e ∈ db.exps, pathMatchQuery src e.pathStr = true →
      (splitPath (replaceFirst src dest e.pathStr)).isSome = true := by
    intro e he hq
    rw [pathMatchQuery_eq_inSubtree hroot hnsl] at hq
    exact hvalid e.pathStr
      (List.mem_append_right _ (List.mem_map_of_mem _ he)) hq
  refine ⟨_, move_nonwildcard fuel db src dest hroot hnw
      (by rw [updatePathsDirs_of_valid hdvalid])
      (by rw [updatePathsExps_of_valid hevalid]), ?_, ?_⟩
  · rw [updatePaths_docPaths]
    apply List.map_congr_left
    intro p _
    rw [pathMatchQuery_eq_inSubtree hroot hnsl]
    by_cases h : inSubtree src p = true
    · rw [if_pos h, if_pos h]
      have hpre : src.isPrefixOf p = true := by
        rw [List.isPrefixOf_iff_prefix]
        rcases inSubtree_iff.mp h with rfl | h2
        · exact List.prefix_refl _
        · exact (List.prefix_append src ['/']).trans h2
      exact replaceFirst_of_isPrefixOf hpre
    · rw [if_neg h, if_neg h]
  · intro hd1 hd2 p' hp'
    rw [updatePaths_docPaths] at hp'
    obtain ⟨p, hpmem, hpeq⟩ := List.mem_map.mp hp'
    rw [pathMatchQuery_eq_inSubtree hroot hnsl] at hpeq
    by_cases h : inSubtree src p = true
    · rw [if_pos h] at hpeq
      have hpre : src.isPrefixOf p = true := by
        rw [List.isPrefixOf_iff_prefix]
        rcases inSubtree_iff.mp h with rfl | h2
        · exact List.prefix_refl _
        · exact (List.prefix_append src ['/']).trans h2
      rw [replaceFirst_of_isPrefixOf hpre] at hpeq
      have hdest : inSubtree dest p' = true := by
        rcases inSubtree_iff.mp h with rfl | h2
        · rw [← hpeq, List.drop_length, List.append_nil]
          exact inSubtree_iff.mpr (Or.inl rfl)
        · obtain ⟨t, ht⟩ := h2
          have hdrop : p.drop src.length = '/' :: t := by
            rw [← ht, List.append_assoc, List.drop_left]
            rfl
          rw [← hpeq, hdrop]
          exact inSubtree_iff.mpr (Or.inr ⟨t, by simp⟩)
      rcases h3 : inSubtree src p' with _ | _
      · rfl
      · exfalso
        rcases subtree_overlap h3 hdest with h4 | h4
        · rw [h4] at hd1
          exact Bool.noConfusion hd1
        · rw [h4] at hd2
          exact Bool.noConfusion hd2
    · rw [if_neg h] at hpeq
      rw [← hpeq]
      exact (Bool.not_eq_true _) ▸ h

/-- Witness for the amended C7: moving `/a` to `/z` over `dbC4`. -/
theorem C7_move_prefix_rewrite_witness :
    ∃ db', move 10 dbC4 ['/', 'a'] ['/', 'z'] false = some (none, db') ∧
      docPaths db' = (docPaths dbC4).map
        (fun p => if inSubtree ['/', 'a'] p then ['/', 'z'] ++ p.drop (['/', 'a'] : Str).length
          else p) ∧
      (inSubtree ['/', 'a'] ['/', 'z'] = false → inSubtree ['/', 'z'] ['/', 'a'] = false →
        ∀ p' ∈ docPaths db', inSubtree ['/', 'a'] p' = false) :=
  C7_move_prefix_rewrite 9 dbC4 ['/', 'a'] ['/', 'z']
    (by decide) (by decide) (by decide) (by decide)

/-! ### C2 amended: uniqueness is preserved by the conflict-checked operations -/

theorem not_mem_docPaths_of_pathExists_false {db : DB} {p : Str}
    (h : pathExists db p = false) : p ∉ docPaths db := by
  intro hmem
  rw [pathExists] at h
  simp only [Bool.or_eq_false_iff] at h
  obtain ⟨⟨_, hdirs⟩, hexps⟩ := h
  rcases List.mem_append.mp hmem with hm | hm
  · obtain ⟨d, hd, rfl⟩ := List.mem_map.mp hm
    have : db.dirs.any (fun x => x.pathStr == d.pathStr) = true :=
      List.any_eq_true.mpr ⟨d, hd, beq_self_eq_true _⟩
    rw [hdirs] at this
    exact Bool.noConfusion this
  · obtain ⟨e, he, rfl⟩ := List.mem_map.mp hm
    have : db.exps.any (fun x => x.pathStr == e.pathStr) = true :=
      List.any_eq_true.mpr ⟨e, he, beq_self_eq_true _⟩
    rw [hexps] at this
    exact Bool.noConfusion this

theorem nodup_insert_dir {db : DB} {p : Str} (hnmem : p ∉ docPaths db)
    (hnd : (docPaths db).Nodup) (c : Nat) (notes : List (Str × Int)) :
    (docPaths { db with dirs := db.dirs ++ [⟨p, c, notes⟩], clock := db.clock + 1 }).Nodup := by
  have hform : docPaths { db with dirs := db.dirs ++ [⟨p, c, notes⟩], clock := db.clock + 1 }
      = db.dirs.map (fun d => d.pathStr) ++ p :: db.exps.map (fun e => e.pathStr) := by
    simp [docPaths]
  rw [hform]
  have hperm : (p :: docPaths db).Perm
      (db.dirs.map (fun d => d.pathStr) ++ p :: db.exps.map (fun e => e.pathStr)) :=
    List.perm_middle.symm
  exact (List.Perm.nodup_iff hperm).mp (List.nodup_cons.mpr ⟨hnmem, hnd⟩)

theorem nodup_insert_exp {db : DB} {p : Str} (hnmem : p ∉ docPaths db)
    (hnd : (docPaths db).Nodup) (c : Nat) (data : List (Str × Val))
    (notes : List (Str × Int)) :
    (docPaths { db with exps := db.exps ++ [⟨p, c, data, notes⟩], clock := db.clock + 1 }).Nodup := by
  have hform : docPaths { db with exps := db.exps ++ [⟨p, c, data, notes⟩], clock := db.clock + 1 }
      = docPaths db ++ [p] := by
    simp [docPaths]
  rw [hform]
  have hperm : (p :: docPaths db).Perm (docPaths db ++ [p]) := by
    have h0 : (docPaths db ++ p :: ([] : List Str)).Perm
        (p :: (docPaths db ++ ([] : List Str))) := List.perm_middle
    rw [List.append_nil] at h0
    exact h0.symm
  exact (List.Perm.nodup_iff hperm).mp (List.nodup_cons.mpr ⟨hnmem, hnd⟩)

theorem createDir_nodup {db : DB} {p : Str} {notes : List (Str × Int)} {db' : DB}
    (h : createDir db p notes = some db') (hnd : (docPaths db).Nodup) :
    (docPaths db').Nodup := by
  rw [createDir] at h
  split at h
  · exact absurd h (by simp)
  · split at h
    · exact absurd h (by simp)
    · split at h
      · exact absurd h (by simp)
      · split at h
        · exact absurd h (by simp)
        · split at h
          · exact absurd h (by simp)
          · have hex : ¬ pathExists db p = true := by assumption
            cases h
            exact nodup_insert_dir
              (not_mem_docPaths_of_pathExists_false (Bool.of_not_eq_true hex)) hnd _ _

theorem createExperiment_named_eq (db : DB) (dir : Str) (c : Char) (cs : Str)
    (data : List (Str × Val)) (notes : List (Str × Int)) :
    createExperiment db dir (some (c :: cs)) data notes =
      if dirExists db dir = true then
        (if pathExists db (expPathFor dir (c :: cs)) = true then none
         else some (expPathFor dir (c :: cs), c :: cs,
           { db with
             exps := db.exps ++ [⟨expPathFor dir (c :: cs), db.clock, data, notes⟩],
             clock := db.clock + 1 }))
      else none := by
  rw [createExperiment]
  by_cases hdir : dirExists db dir = true
  · rw [if_neg (not_not_intro hdir), if_pos hdir]
  · rw [if_neg hdir, if_pos hdir]

theorem createExperiment_nodup {db : DB} {dir : Str} {c : Char} {cs : Str}
    {data : List (Str × Val)} {notes : List (Str × Int)} {res : Str × Str × DB}
    (h : createExperiment db dir (some (c :: cs)) data notes = some res)
    (hnd : (docPaths db).Nodup) : (docPaths res.2.2).Nodup := by
  rw [createExperiment_named_eq] at h
  split at h
  · split at h
    · exact absurd h (by simp)
    · rename_i hex
      cases h
      exact nodup_insert_exp
        (not_mem_docPaths_of_pathExists_false (Bool.of_not_eq_true hex)) hnd _ _ _
  · exact absurd h (by simp)

theorem cleanupStep_collections (db : DB) (kv : Str × Val) :
    (cleanupStep db kv).dirs = db.dirs ∧ (cleanupStep db kv).exps = db.exps := by
  rcases kv with ⟨k, v⟩
  cases v with
  | scalar n => exact ⟨rfl, rfl⟩
  | arrDesc st loc => cases st <;> exact ⟨rfl, rfl⟩

theorem cleanupArrayFiles_collections :
    ∀ (data : List (Str × Val)) (db : DB),
      (cleanupArrayFiles db data).dirs = db.dirs ∧
      (cleanupArrayFiles db data).exps = db.exps := by
  intro data
  induction data with
  | nil => exact fun db => ⟨rfl, rfl⟩
  | cons kv rest ih =>
    intro db
    rw [cleanupArrayFiles, List.foldl_cons]
    have hrest := ih (cleanupStep db kv)
    rw [cleanupArrayFiles] at hrest
    refine ⟨?_, ?_⟩
    · rw [hrest.1, (cleanupStep_collections db kv).1]
    · rw [hrest.2, (cleanupStep_collections db kv).2]

theorem cleanup_fold_collections :
    ∀ (datas : List (List (Str × Val))) (db : DB),
      ((datas.foldl cleanupArrayFiles db).dirs = db.dirs ∧
       (datas.foldl cleanupArrayFiles db).exps = db.exps) := by
  intro datas
  induction datas with
  | nil => exact fun db => ⟨rfl, rfl⟩
  | cons d rest ih =>
    intro db
    rw [List.foldl_cons]
    refine ⟨?_, ?_⟩
    · rw [(ih _).1, (cleanupArrayFiles_collections d db).1]
    · rw [(ih _).2, (cleanupArrayFiles_collections d db).2]

theorem delete_shrinks_pair : ∀ fuel : Nat,
    (∀ (db : DB) (path : Str) (dry : Bool) r, delete fuel db path dry = some r →
      r.2.dirs.Sublist db.dirs ∧ r.2.exps.Sublist db.exps) ∧
    (∀ (db : DB) (items : List Item) db', deleteItemsReal fuel db items = some db' →
      db'.dirs.Sublist db.dirs ∧ db'.exps.Sublist db.exps) := by
  intro fuel
  induction fuel with
  | zero =>
    constructor
    · intro db path dry r h
      exact absurd h (by rw [delete]; simp)
    · intro db items db' h
      cases items with
      | nil =>
        rw [deleteItemsReal] at h
        cases h
        exact ⟨List.Sublist.refl _, List.Sublist.refl _⟩
      | cons it rest =>
        exact absurd h (by rw [deleteItemsReal]; simp)
  | succ fuel ih =>
    constructor
    · intro db path dry r h
      simp only [delete] at h
      split at h
      · split at h
        · exact absurd h (by simp)
        · split at h
          · exact absurd h (by simp)
          · split at h
            · exact absurd h (by simp)
            · split at h
              · split at h
                · exact absurd h (by simp)
                · cases h
                  exact ⟨List.Sublist.refl _, List.Sublist.refl _⟩
              · split at h
                · exact absurd h (by simp)
                · rename_i db2 hreal
                  cases h
                  exact ih.2 db _ db2 hreal
      · split at h
        · cases h
          exact ⟨List.Sublist.refl _, List.Sublist.refl _⟩
        · cases h
          constructor
          · rw [(cleanup_fold_collections _ db).1]
            exact List.filter_sublist _
          · rw [(cleanup_fold_collections _ db).2]
            exact List.filter_sublist _
    · intro db items db' h
      cases items with
      | nil =>
        rw [deleteItemsReal] at h
        cases h
        exact ⟨List.Sublist.refl _, List.Sublist.refl _⟩
      | cons it rest =>
        rw [deleteItemsReal] at h
        split at h
        · rename_i cnt dbm heq
          have h1 := ih.1 db it.pathStr false (cnt, dbm) heq
          have h2 := ih.2 dbm rest db' h
          exact ⟨h2.1.trans h1.1, h2.2.trans h1.2⟩
        · exact absurd h (by simp)

theorem delete_nodup {fuel : Nat} {db : DB} {path : Str} {r}
    (h : delete fuel db path false = some r) (hnd : (docPaths db).Nodup) :
    (docPaths r.2).Nodup := by
  have hsub := (delete_shrinks_pair fuel).1 db path false r h
  exact hnd.sublist (List.Sublist.append (hsub.1.map _) (hsub.2.map _))

theorem move_nodup {db : DB} {src dest : Str}
    (hroot : (src == rootPath) = false)
    (hnw : (['/', '*'].isSuffixOf src) = false)
    (hnsl : (['/'].isSuffixOf src) = false)
    (hvac : ∀ p ∈ docPaths db, inSubtree dest p = false)
    (hnd : (docPaths db).Nodup) :
    (docPaths { db with
      dirs := db.dirs.map (rewriteDir (pathMatchQuery src) src dest),
      exps := db.exps.map (rewriteExp (pathMatchQuery src) src dest) }).Nodup := by
  rw [updatePaths_docPaths]
  refine List.Nodup.map_on ?_ hnd
  intro x hx y hy hxy
  rw [pathMatchQuery_eq_inSubtree hroot hnsl] at hxy
  rw [pathMatchQuery_eq_inSubtree hroot hnsl] at hxy
  have hpre : ∀ z : Str, inSubtree src z = true → src.isPrefixOf z = true := by
    intro z hz
    rw [List.isPrefixOf_iff_prefix]
    rcases inSubtree_iff.mp hz with rfl | h2
    · exact List.prefix_refl _
    · exact (List.prefix_append src ['/']).trans h2
  have hsub : ∀ z : Str, inSubtree src z = true →
      inSubtree dest (dest ++ z.drop src.length) = true := by
    intro z hz
    rcases inSubtree_iff.mp hz with rfl | h2
    · rw [List.drop_length, List.append_nil]
      exact inSubtree_iff.mpr (Or.inl rfl)
    · obtain ⟨t, ht⟩ := h2
      have hdrop : z.drop src.length = '/' :: t := by
        rw [← ht, List.append_assoc, List.drop_left]
        rfl
      rw [hdrop]
      exact inSubtree_iff.mpr (Or.inr ⟨t, by simp⟩)
  by_cases h1 : inSubtree src x = true
  · rw [if_pos h1, replaceFirst_of_isPrefixOf (hpre x h1)] at hxy
    by_cases h2 : inSubtree src y = true
    · rw [if_pos h2, replaceFirst_of_isPrefixOf (hpre y h2)] at hxy
      have hdx := List.append_cancel_left hxy
      rw [eq_append_drop_of_isPrefixOf (hpre x h1),
        eq_append_drop_of_isPrefixOf (hpre y h2), hdx]
    · rw [if_neg h2] at hxy
      exfalso
      have := hsub x h1
      rw [hxy] at this
      rw [hvac y hy] at this
      exact Bool.noConfusion this
  · rw [if_neg h1] at hxy
    by_cases h2 : inSubtree src y = true
    · rw [if_pos h2, replaceFirst_of_isPrefixOf (hpre y h2)] at hxy
      exfalso
      have := hsub y h2
      rw [← hxy] at this
      rw [hvac x hx] at this
      exact Bool.noConfusion this
    · rw [if_neg h2] at hxy
      exact hxy

/-- Side conditions of the amended C2 on one operation: experiments are
created only with a (truthy) explicit name, and a move is non-wildcard, has a
source that is not slash-terminated, and a destination whose subtree holds no
document. -/
def okOp (db : DB) : Op → Bool
  | .createDirOp _ => true
  | .createExpOp _ name =>
    match name with
    | some (_ :: _) => true
    | _ => false
  | .moveOp src dest =>
    !(['/', '*'].isSuffixOf src) && !(['/'].isSuffixOf src) &&
      (docPaths db).all (fun p => !inSubtree dest p)
  | .deleteOp _ => true

/-- A trace is admissible when every operation satisfies `okOp` in the state
it runs in. -/
def okTrace (db : DB) : List Op → Bool
  | [] => true
  | op :: rest => okOp db op && okTrace (runOp db op) rest

theorem runOp_nodup (db : DB) (op : Op) (hok : okOp db op = true)
    (hnd : (docPaths db).Nodup) : (docPaths (runOp db op)).Nodup := by
  cases op with
  | createDirOp p =>
    rw [runOp]
    cases heq : createDir db p [] with
    | none => exact hnd
    | some db' => exact createDir_nodup heq hnd
  | createExpOp dir name =>
    cases name with
    | none =>
      simp [okOp] at hok
    | some n =>
      cases n with
      | nil =>
        simp [okOp] at hok
      | cons c cs =>
        rw [runOp]
        cases heq : createExperiment db dir (some (c :: cs)) [] [] with
        | none => exact hnd
        | some res =>
          have := createExperiment_nodup heq hnd
          rcases res with ⟨a, b, db'⟩
          exact this
  | moveOp src dest =>
    rw [okOp] at hok
    simp only [Bool.and_eq_true, Bool.not_eq_true', List.all_eq_true] at hok
    obtain ⟨⟨hnw, hnsl⟩, hvac⟩ := hok
    rw [runOp]
    cases heq : move (fuelFor db) db src dest false with
    | none => exact hnd
    | some r =>
      obtain ⟨cnt, db'⟩ := r
      by_cases hroot : (src == rootPath) = true
      · exfalso
        have hnone : move (fuelFor db) db src dest false = none := by
          rw [show fuelFor db = (db.dirs.length + db.exps.length) + 1 from rfl]
          simp only [move]
          rw [if_pos hroot]
        rw [hnone] at heq
        exact Option.noConfusion heq
      · have hroot' : (src == rootPath) = false := Bool.of_not_eq_true hroot
        have hr := move_nonwildcard_success hroot' hnw
          (show move ((db.dirs.length + db.exps.length) + 1) db src dest false =
            some (cnt, db') from heq)
        have hdb : db' = { db with
            dirs := db.dirs.map (rewriteDir (pathMatchQuery src) src dest),
            exps := db.exps.map (rewriteExp (pathMatchQuery src) src dest) } :=
          congrArg Prod.snd hr
        show (docPaths db').Nodup
        rw [hdb]
        exact move_nodup hroot' hnw hnsl hvac hnd
  | deleteOp p =>
    rw [runOp]
    cases heq : delete (fuelFor db) db p false with
    | none => exact hnd
    | some r => exact delete_nodup heq hnd

/-- C2 amended: along every trace of `create_dir`, `create_experiment` with an
explicit name, non-wildcard `move` whose source is not slash-terminated and
whose destination subtree is vacant, and `delete`, no two documents ever
share the same path string.  (The unamended claim fails for auto-named
`create_experiment` — see the counterexample — and for moves into an occupied
destination; a slash-terminated source also breaks it even with a vacant
destination subtree, since `"/a/x".replace("/a/", "/b", 1)` is `"/bx"`,
colliding with any existing `/bx` sibling.) -/
theorem C2_unique_paths_amended (db : DB) (ops : List Op)
    (hnd : (docPaths db).Nodup) (hok : okTrace db ops = true) :
    (docPaths (runOps db ops)).Nodup := by
  induction ops generalizing db with
  | nil => exact hnd
  | cons op rest ih =>
    rw [okTrace, Bool.and_eq_true] at hok
    exact ih (runOp db op) (runOp_nodup db op hok.1 hnd) hok.2

/-- Witness for the amended C2: a concrete admissible trace from the empty
store (create `/a`, create named experiment `/a/x`, move `/a` to `/c`,
delete `/c`). -/
theorem C2_unique_paths_amended_witness :
    (docPaths (runOps DB.init
      [Op.createDirOp ['/', 'a'],
       Op.createExpOp ['/', 'a'] (some ['x']),
       Op.moveOp ['/', 'a'] ['/', 'c'],
       Op.deleteOp ['/', 'c']])).Nodup :=
  C2_unique_paths_amended DB.init _ (by decide) (by decide)

/-- The store `{/a, /bx, /a/x}` on which a slash-terminated move source
breaks uniqueness. -/
def dbSlash : DB :=
  ⟨[⟨['/', 'a'], 0, []⟩, ⟨['/', 'b', 'x'], 1, []⟩],
   [⟨['/', 'a', '/', 'x'], 2, [], []⟩], [], [], [], 3⟩

/-- The slash-terminated-source restriction of the amended C2 is necessary:
over `dbSlash` the destination subtree `/b` is vacant, yet the non-wildcard
`move("/a/", "/b")` turns `/a/x` into `/bx` (`str.replace("/a/", "/b", 1)`),
duplicating the existing `/bx`. -/
theorem move_slash_src_duplicates :
    (∀ p ∈ docPaths dbSlash, inSubtree ['/', 'b'] p = false) ∧
    ¬ (docPaths (runOp dbSlash (Op.moveOp ['/', 'a', '/'] ['/', 'b']))).Nodup := by
  decide

/-! ### C1: list_dir -/

theorem splitPath_eq_some {p : Str} {segs : List Str} (h : splitPath p = some segs) :
    segs = (p.splitOn '/').filter (fun s => !s.isEmpty) := by
  rw [splitPath] at h
  split at h
  · exact absurd h (by simp)
  · split at h
    · exact absurd h (by simp)
    · split at h
      · exact absurd h (by simp)
      · exact (Option.some_inj.mp h).symm

theorem modifyHead_append {l r : List Str} (hl : l ≠ []) (f : Str → Str) :
    (l ++ r).modifyHead f = l.modifyHead f ++ r := by
  cases l with
  | nil => exact absurd rfl hl
  | cons a t => rfl

theorem splitOn_append : ∀ (a b : Str),
    (a ++ '/' :: b).splitOn '/' = a.splitOn '/' ++ b.splitOn '/' := by
  intro a
  induction a with
  | nil =>
    intro b
    rw [List.nil_append, splitOn_slash_cons]
    rfl
  | cons c cs ih =>
    intro b
    rw [List.cons_append]
    by_cases hc : c = '/'
    · subst hc
      rw [splitOn_slash_cons, splitOn_slash_cons, ih, List.cons_append]
    · have hbeq : (c == '/') = false := beq_eq_false_iff_ne.mpr hc
      simp only [List.splitOn] at *
      rw [List.splitOnP_cons, List.splitOnP_cons, if_neg (by rw [hbeq]; exact
        Bool.false_ne_true), if_neg (by rw [hbeq]; exact Bool.false_ne_true), ih]
      exact modifyHead_append (List.splitOnP_ne_nil _ _) _

theorem splitOn_no_slash {s : Str} (h : '/' ∉ s) : s.splitOn '/' = [s] := by
  rw [List.splitOn]
  refine List.splitOnP_eq_single _ _ ?_
  intro x hx hbeq
  exact h ((eq_of_beq hbeq) ▸ hx)

theorem matchesDirectChild_decomp {p cand : Str}
    (h : matchesDirectChild p cand = true) :
    cand = parentSlash p ++ cand.drop (parentSlash p).length ∧
    cand.drop (parentSlash p).length ≠ [] ∧
    '/' ∉ cand.drop (parentSlash p).length := by
  rw [matchesDirectChild, Bool.and_eq_true, Bool.and_eq_true] at h
  obtain ⟨⟨h1, h2⟩, h3⟩ := h
  refine ⟨eq_append_drop_of_isPrefixOf h1, ?_, ?_⟩
  · intro h0
    rw [h0] at h2
    exact Bool.noConfusion h2
  · intro hmem
    have : (cand.drop (parentSlash p).length).contains '/' = true :=
      List.elem_iff.mpr hmem
    rw [this] at h3
    exact Bool.noConfusion h3

/-- A matched direct child splits into the parent's segments plus exactly one
further segment. -/
theorem directChild_segs {p cand : Str} {segsP segsC : List Str}
    (hm : matchesDirectChild p cand = true)
    (hp : splitPath p = some segsP) (hc : splitPath cand = some segsC) :
    segsC = segsP ++ [cand.drop (parentSlash p).length] := by
  obtain ⟨hdec, hne, hnoslash⟩ := matchesDirectChild_decomp hm
  have hP := splitPath_eq_some hp
  have hC := splitPath_eq_some hc
  generalize ht : cand.drop (parentSlash p).length = t at hdec hne hnoslash ⊢
  have hseg_split : t.splitOn '/' = [t] := splitOn_no_slash hnoslash
  have hseg_filter : ([t].filter (fun s => !s.isEmpty)) = [t] := by
    rw [List.filter_cons_of_pos]
    · rfl
    · cases h0 : t with
      | nil => exact absurd h0 hne
      | cons x xs => rfl
  by_cases hsl : (['/'].isSuffixOf p) = true
  · obtain ⟨p0, hp0⟩ := List.isSuffixOf_iff_suffix.mp hsl
    have hps : parentSlash p = p := by rw [parentSlash, if_pos hsl]
    rw [hps] at hdec
    have hcand : cand = p0 ++ '/' :: t := by
      rw [hdec, ← hp0]; simp
    rw [hC, hcand, splitOn_append, List.filter_append, hseg_split, hseg_filter]
    congr 1
    rw [hP, ← hp0]
    have hshape2 : (p0 ++ ['/'] : Str) = p0 ++ '/' :: ([] : Str) := rfl
    rw [hshape2, splitOn_append, List.filter_append]
    have : (([] : Str).splitOn '/').filter (fun s => !s.isEmpty) = [] := rfl
    rw [this, List.append_nil]
  · have hps : parentSlash p = p ++ ['/'] := by
      rw [parentSlash, if_neg (by rw [Bool.of_not_eq_true hsl]; exact Bool.false_ne_true)]
    rw [hps] at hdec
    have hcand : cand = p ++ '/' :: t := by
      rw [hdec]; simp
    rw [hC, hcand, splitOn_append, List.filter_append, hseg_split,
      hseg_filter, ← hP]

instance : IsTotal Item byCreatedDesc :=
  ⟨fun a b => (Nat.le_total b.createdAt a.createdAt).symm.imp id id |>.symm⟩

instance : IsTrans Item byCreatedDesc :=
  ⟨fun _ _ _ h1 h2 => Nat.le_trans h2 h1⟩

/-- The directory with creation time 0 and the experiment with creation time 1
used to refute the cross-kind ordering of C1. -/
def dbC1 : DB :=
  ⟨[⟨['/', 'd'], 0, []⟩], [⟨['/', 'e'], 1, [], []⟩], [], [], [], 2⟩

/-- C1 counterexample: `list_dir("/")` over `dbC1` returns the directory
(created at 0) before the experiment (created at 1): the merged result is NOT
ordered by creation time descending across both kinds, because the code sorts
each collection separately and concatenates directories first. -/
theorem C1_list_dir_cex :
    (listDir dbC1 rootPath).map (fun l => l.map Item.createdAt) = some [0, 1] ∧
    ¬ List.Sorted (fun a b : Nat => b ≤ a) [0, 1] := ⟨by decide, by decide⟩

/-- C1 amended: `list_dir(p)` on an existing directory returns exactly the
direct children — documents whose path extends `p` by one slash-free segment,
hence (whenever both paths parse) with exactly one more segment than `p` —
drawn from both collections; the directory block comes first and each block
separately is ordered by creation time descending. -/
theorem C1_list_dir_amended (db : DB) (p : Str) (hdir : dirExists db p = true) :
    ∃ l1 l2, listDir db p = some (l1 ++ l2) ∧
      l1.Perm ((db.dirs.filter (fun d => matchesDirectChild p d.pathStr)).map
        (fun d => Item.mk .directory d.pathStr d.createdAt)) ∧
      l2.Perm ((db.exps.filter (fun e => matchesDirectChild p e.pathStr)).map
        (fun e => Item.mk .experiment e.pathStr e.createdAt)) ∧
      List.Sorted byCreatedDesc l1 ∧ List.Sorted byCreatedDesc l2 ∧
      (∀ it ∈ l1 ++ l2, matchesDirectChild p it.pathStr = true) ∧
      (∀ it ∈ l1 ++ l2, ∀ segsP segsC, splitPath p = some segsP →
        splitPath it.pathStr = some segsC → segsC.length = segsP.length + 1) := by
  refine ⟨((db.dirs.filter (fun d => matchesDirectChild p d.pathStr)).map
      (fun d => Item.mk .directory d.pathStr d.createdAt)).insertionSort byCreatedDesc,
    ((db.exps.filter (fun e => matchesDirectChild p e.pathStr)).map
      (fun e => Item.mk .experiment e.pathStr e.createdAt)).insertionSort byCreatedDesc,
    ?_, ?_, ?_, ?_, ?_, ?_, ?_⟩
  · rw [listDir, if_neg (by rw [hdir]; exact fun h => h rfl)]
  · exact List.perm_insertionSort _ _
  · exact List.perm_insertionSort _ _
  · exact List.sorted_insertionSort _ _
  · exact List.sorted_insertionSort _ _
  case refine_6 =>
    intro it hit
    rcases List.mem_append.mp hit with hm | hm
    · have hm2 := (List.perm_insertionSort byCreatedDesc _).mem_iff.mp hm
      obtain ⟨d, hd, rfl⟩ := List.mem_map.mp hm2
      exact (List.mem_filter.mp hd).2
    · have hm2 := (List.perm_insertionSort byCreatedDesc _).mem_iff.mp hm
      obtain ⟨e, he, rfl⟩ := List.mem_map.mp hm2
      exact (List.mem_filter.mp he).2
  case refine_7 =>
    intro it hit segsP segsC hp hc
    have hmatch : matchesDirectChild p it.pathStr = true := by
      rcases List.mem_append.mp hit with hm | hm
      · have hm2 := (List.perm_insertionSort byCreatedDesc _).mem_iff.mp hm
        obtain ⟨d, hd, rfl⟩ := List.mem_map.mp hm2
        exact (List.mem_filter.mp hd).2
      · have hm2 := (List.perm_insertionSort byCreatedDesc _).mem_iff.mp hm
        obtain ⟨e, he, rfl⟩ := List.mem_map.mp hm2
        exact (List.mem_filter.mp he).2
    rw [directChild_segs hmatch hp hc]
    simp

/-- Witness for the amended C1 at `dbC1` and the root directory. -/
theorem C1_list_dir_amended_witness :
    ∃ l1 l2, listDir dbC1 rootPath = some (l1 ++ l2) ∧
      l1.Perm ((dbC1.dirs.filter (fun d => matchesDirectChild rootPath d.pathStr)).map
        (fun d => Item.mk .directory d.pathStr d.createdAt)) ∧
      l2.Perm ((dbC1.exps.filter (fun e => matchesDirectChild rootPath e.pathStr)).map
        (fun e => Item.mk .experiment e.pathStr e.createdAt)) ∧
      List.Sorted byCreatedDesc l1 ∧ List.Sorted byCreatedDesc l2 ∧
      (∀ it ∈ l1 ++ l2, matchesDirectChild rootPath it.pathStr = true) ∧
      (∀ it ∈ l1 ++ l2, ∀ segsP segsC, splitPath rootPath = some segsP →
        splitPath it.pathStr = some segsC → segsC.length = segsP.length + 1) :=
  C1_list_dir_amended dbC1 rootPath (by decide)

/-! ### C3: `ExperimentQuery._expand_paths` (api.py)

Embedding of the range-pattern expansion.  `str.find` is modeled by an index
scan returning `Option Nat` (Python's `-1` sentinel becomes `none`), `in` by
substring search, `int(...)` by whitespace-stripping signed decimal parsing,
and the recursion of `_expand_paths` on freshly expanded paths by fuel: each
expansion consumes one `$(` occurrence (the inserted decimal digits contain
neither `$` nor `(`), so `count of dollar signs + 1` bounds the depth. -/

/-- Scan for the first occurrence of `needle` in the haystack, reporting the
index offset by `i` (`str.find` with explicit accumulator). -/
def findSubAux (needle : Str) : Str → Nat → Option Nat
  | [], i => if needle.isPrefixOf ([] : Str) then some i else none
  | c :: t, i =>
    if needle.isPrefixOf (c :: t) then some i
    else findSubAux needle t (i + 1)

/-- `hay.find(needle)`, `none` for Python's `-1`. -/
def findSub (needle hay : Str) : Option Nat := findSubAux needle hay 0

/-- `hay.find(needle, start)`: search only from index `start`, absolute
result index. -/
def findFrom (needle hay : Str) (start : Nat) : Option Nat :=
  (findSubAux needle (hay.drop start) 0).map (· + start)

/-- Python `needle in hay` substring test. -/
def containsSub (needle hay : Str) : Bool := (findSub needle hay).isSome

/-- Decimal digit accumulation for `int(...)`; `none` on the first
non-digit. -/
def digitsValAux : Str → Nat → Option Nat
  | [], acc => some acc
  | c :: cs, acc =>
    if c.isDigit then digitsValAux cs (10 * acc + (c.toNat - 48)) else none

/-- A nonempty all-digit string's value. -/
def digitsVal : Str → Option Nat
  | [] => none
  | c :: cs => digitsValAux (c :: cs) 0

/-- Strip surrounding blanks as `int(...)` does (space and tab suffice for the
path alphabet; PEP 515 underscore grouping is not modeled). -/
def stripWs (s : Str) : Str :=
  ((s.dropWhile fun c => c == ' ' || c == '\t').reverse.dropWhile
    fun c => c == ' ' || c == '\t').reverse

/-- Python `int(s)`: optional sign then decimal digits, surrounding
whitespace tolerated; `none` models `ValueError`. -/
def parsePyInt (s : Str) : Option Int :=
  match stripWs s with
  | '-' :: t => (digitsVal t).map (fun n => -(n : Int))
  | '+' :: t => (digitsVal t).map (fun n => (n : Int))
  | t => (digitsVal t).map (fun n => (n : Int))

/-- `start_val, end_val = map(int, range_expr.split("-"))`: exactly two
dash-separated pieces, both parsing as ints; `none` models the caught
`ValueError` (wrong piece count or a failing `int`). -/
def parseDashRange (e : Str) : Option (Int × Int) :=
  match e.splitOn '-' with
  | [a, b] =>
    match parsePyInt a, parsePyInt b with
    | some x, some y => some (x, y)
    | _, _ => none
  | _ => none

/-- `range(a, b + 1)` over `Int`: empty when `a > b`. -/
def intRange (a b : Int) : List Int :=
  (List.range (b + 1 - a).toNat).map (fun i => a + (i : Int))

/-- `f-string` rendering of an int. -/
def intStr : Int → Str
  | Int.ofNat n => natStr n
  | Int.negSucc n => '-' :: natStr (n + 1)

/-- The opening marker of a range pattern. -/
def dollarOpen : Str := ['$', '(']

/-- `"$(" in path and ")" in path`. -/
def hasPattern (p : Str) : Bool := containsSub dollarOpen p && containsSub [')'] p

/-- One path's contribution to `_expand_paths`: first `$(`, first `)` after
it, dash ranges expanded recursively, everything else (comma lists included)
appended verbatim. -/
def expandPath : Nat → Str → List Str
  | 0, path => [path]
  | fuel + 1, path =>
    if hasPattern path then
      match findSub dollarOpen path with
      | none => [path]
      | some startIdx =>
        match findFrom [')'] path startIdx with
        | none => [path]
        | some endIdx =>
          if startIdx < endIdx then
            let rangeExpr := (path.take endIdx).drop (startIdx + 2)
            if containsSub ['-'] rangeExpr then
              match parseDashRange rangeExpr with
              | some (sv, ev) =>
                let base := path.take startIdx
                let suffix := path.drop (endIdx + 1)
                (intRange sv ev).flatMap (fun i =>
                  let ep := base ++ intStr i ++ suffix
                  if hasPattern ep then expandPath fuel ep else [ep])
              | none => [path]
            else [path]
          else [path]
    else [path]

/-- `_expand_paths`: the concatenation of every input path's contribution. -/
def expandPaths (paths : List Str) : List Str :=
  paths.flatMap (fun p => expandPath (p.count '$' + 1) p)

/-- The comma-list template from the claim (and from the repository's own
test suite). -/
def commaPath : Str :=
  ['/', 't', 'e', 's', 't', '/', 'e', 'x', 'p', '$', '(', '1', ',', '3', ',', '5', ')']

/-- C3: code bug. `_expand_paths` never expands comma lists: only
`"-" in range_expr` is handled, so `"/test/exp$(1,3,5)"` comes back verbatim
instead of as one path per listed value (the repository's own test suite
expects the expansion), while the dash form of the very same routine does
expand; and nothing anywhere suppresses duplicates — two overlapping dash
templates yield the shared path twice. -/
theorem C3_expand_paths_code_bug :
    expandPaths [commaPath] = [commaPath] ∧
    expandPaths [['/', 'a', '/', 'e', 'x', 'p', '$', '(', '1', '-', '3', ')']] =
      [['/', 'a', '/', 'e', 'x', 'p', '1'], ['/', 'a', '/', 'e', 'x', 'p', '2'],
       ['/', 'a', '/', 'e', 'x', 'p', '3']] ∧
    expandPaths [['/', 'a', '/', 'e', 'x', 'p', '$', '(', '1', '-', '2', ')'],
                 ['/', 'a', '/', 'e', 'x', 'p', '$', '(', '2', '-', '3', ')']] =
      [['/', 'a', '/', 'e', 'x', 'p', '1'], ['/', 'a', '/', 'e', 'x', 'p', '2'],
       ['/', 'a', '/', 'e', 'x', 'p', '2'], ['/', 'a', '/', 'e', 'x', 'p', '3']] := by
  decide

/-! ### C6: `serialize_numpy_array` / `deserialize_numpy_array`
(serialization.py)

The array model carries dtype string, shape and a flat value list; `np.save`
writes a self-describing buffer (header with dtype and shape, then the raw
values), modeled as a length-prefixed encoding over `List Int` "bytes".
`lz4.frame.compress`/`decompress` are abstract codec parameters (`comp`,
`decomp`) assumed mutually inverse; the 5 MB threshold, the
`none`/`local`/`gridfs` large-file tiers with their store writes, the
`db is not None` guard and the `__compressed__` flag follow the source
(GridFS-tier cache writes belong to the cache model of `_manage_cache_size`
and are not replayed here; `astype` keeps the abstract values and records the
new dtype). -/

/-- A numpy array: dtype string, shape, flat value list. -/
structure NpArray where
  dtype : Str
  shape : List Nat
  elems : List Int
deriving DecidableEq, Repr

/-- `np.save`: self-describing buffer — dtype (length-prefixed), shape
(length-prefixed), then the raw values. -/
def npSaveBytes (a : NpArray) : List Int :=
  ((a.dtype.length : Nat) : Int) ::
    (a.dtype.map (fun c => ((c.toNat : Nat) : Int)) ++
      (((a.shape.length : Nat) : Int) ::
        (a.shape.map (fun n => ((n : Nat) : Int)) ++ a.elems)))

/-- Decode the shape block and the trailing values of an `np.save` buffer,
the dtype already decoded. -/
def npLoadShape (dtype : Str) : List Int → Option NpArray
  | [] => none
  | sl :: rest3 =>
    if (rest3.take sl.toNat).length = sl.toNat then
      some ⟨dtype, (rest3.take sl.toNat).map Int.toNat, rest3.drop sl.toNat⟩
    else none

/-- `np.load`: decode the buffer back; `none` on a malformed buffer. -/
def npLoadBytes : List Int → Option NpArray
  | [] => none
  | dl :: rest =>
    if (rest.take dl.toNat).length = dl.toNat then
      npLoadShape ((rest.take dl.toNat).map (fun i => Char.ofNat i.toNat))
        (rest.drop dl.toNat)
    else none

/-- External array payload state: local files, GridFS objects, fresh-id
counter (`long_id()` / GridFS ids). -/
structure ArrStore where
  localFiles : List (Nat × List Int)
  gridfs : List (Nat × List Int)
  nextId : Nat
deriving DecidableEq, Repr

/-- The serialized-array document (`__numpy_array__` dict): storage tier tag,
optional embedded payload, optional file locators, dtype, shape,
`__compressed__`. -/
structure ArrayDoc where
  storageType : Str
  data : Option (List Int)
  filePath : Option Nat
  fileId : Option Nat
  dtype : Str
  shape : List Nat
  compressed : Bool
deriving DecidableEq, Repr

/-- The `"binary"` storage tag. -/
def binaryStr : Str := ['b', 'i', 'n', 'a', 'r', 'y']

/-- The `"local"` storage tag. -/
def localStr : Str := ['l', 'o', 'c', 'a', 'l']

/-- The `"gridfs"` storage tag. -/
def gridfsStr : Str := ['g', 'r', 'i', 'd', 'f', 's']

/-- The `"none"` large-file-storage setting. -/
def noneStr : Str := ['n', 'o', 'n', 'e']

/-- `serialize_numpy_array`: np.save, optional lz4 compression, 5 MB
threshold; above it the resolved storage type dispatches to an error
(`"none"` or unknown/missing db), a local file write, or a GridFS put; at or
below it the payload is embedded with tier `"binary"`. -/
def serializeNumpyArray (comp : List Int → List Int) (compress hasDb : Bool)
    (storageTypeOpt : Option Str) (cfgLfs : Str) (arr : NpArray)
    (st : ArrStore) : Option (ArrayDoc × ArrStore) :=
  let rawData := npSaveBytes arr
  let data := if compress then comp rawData else rawData
  if 5 * 1024 * 1024 < data.length then
    let storageType := storageTypeOpt.getD cfgLfs
    if storageType = noneStr then none
    else if storageType = localStr then
      some ({ storageType := localStr, data := none, filePath := some st.nextId,
              fileId := none, dtype := arr.dtype, shape := arr.shape,
              compressed := compress },
            { st with localFiles := (st.nextId, data) :: st.localFiles,
                      nextId := st.nextId + 1 })
    else if storageType = gridfsStr ∧ hasDb = true then
      some ({ storageType := gridfsStr, data := none, filePath := none,
              fileId := some st.nextId, dtype := arr.dtype, shape := arr.shape,
              compressed := compress },
            { st with gridfs := (st.nextId, data) :: st.gridfs,
                      nextId := st.nextId + 1 })
    else none
  else
    some ({ storageType := binaryStr, data := some data, filePath := none,
            fileId := none, dtype := arr.dtype, shape := arr.shape,
            compressed := compress }, st)

/-- Association lookup in an external payload store. -/
def storeLookup (l : List (Nat × List Int)) (i : Nat) : Option (List Int) :=
  (l.find? (fun kv => kv.fst == i)).map Prod.snd

/-- `arr.reshape(shape)`: succeeds exactly when the sizes agree. -/
def reshapeArr (a : NpArray) (s : List Nat) : Option NpArray :=
  if s.prod = a.elems.length then some { a with shape := s } else none

/-- `arr.astype(dtype)`: record the new dtype (abstract values are kept). -/
def astypeArr (a : NpArray) (d : Str) : NpArray := { a with dtype := d }

/-- The trailing `if shape and dtype_str:` block of
`deserialize_numpy_array`: with both fields (Python-)truthy, reshape and —
only when the dtype differs — astype. -/
def postprocessArr (doc : ArrayDoc) (a : NpArray) : Option NpArray :=
  if doc.shape = [] ∨ doc.dtype = [] then some a
  else
    match reshapeArr a doc.shape with
    | none => none
    | some a2 => some (if doc.dtype ≠ a2.dtype then astypeArr a2 doc.dtype else a2)

/-- `deserialize_numpy_array`: fetch the payload from the tier named in the
document (GridFS only with a db handle; anything else falls to the embedded
`data` payload), lz4-decompress when `__compressed__`, np.load, then the
shape/dtype postprocessing. -/
def deserializeNumpyArray (decomp : List Int → List Int) (hasDb : Bool)
    (st : ArrStore) (doc : ArrayDoc) : Option NpArray :=
  let loadBuf : List Int → Option NpArray := fun payload =>
    if doc.compressed then npLoadBytes (decomp payload) else npLoadBytes payload
  let arrOpt : Option NpArray :=
    if doc.storageType = gridfsStr ∧ hasDb = true then
      match doc.fileId with
      | none => none
      | some fid =>
        match storeLookup st.gridfs fid with
        | none => none
        | some payload => loadBuf payload
    else if doc.storageType = localStr then
      match doc.filePath with
      | none => none
      | some fp =>
        match storeLookup st.localFiles fp with
        | none => none
        | some payload => loadBuf payload
    else
      match doc.data with
      | none => none
      | some payload => loadBuf payload
  match arrOpt with
  | none => none
  | some a => postprocessArr doc a

/-- Encoding characters as code points and back is the identity. -/
theorem map_intChar_id (l : Str) :
    (l.map (fun c => ((c.toNat : Nat) : Int))).map (fun i => Char.ofNat i.toNat) = l := by
  induction l with
  | nil => rfl
  | cons c t ih =>
    simp only [List.map_cons]
    rw [ih]
    have : Char.ofNat (((c.toNat : Nat) : Int)).toNat = c := Char.ofNat_toNat c
    rw [this]

/-- Encoding naturals as integers and back is the identity. -/
theorem map_intNat_id (l : List Nat) :
    (l.map (fun n => ((n : Nat) : Int))).map Int.toNat = l := by
  induction l with
  | nil => rfl
  | cons n t ih =>
    simp only [List.map_cons]
    rw [ih]
    rfl

/-- `np.load` inverts `np.save`. -/
theorem npLoadBytes_npSaveBytes (a : NpArray) :
    npLoadBytes (npSaveBytes a) = some a := by
  have hd : (a.dtype.map (fun c => ((c.toNat : Nat) : Int))).length = a.dtype.length :=
    List.length_map _ _
  have hs : (a.shape.map (fun n => ((n : Nat) : Int))).length = a.shape.length :=
    List.length_map _ _
  have hdl : Int.toNat ((a.dtype.length : Nat) : Int) = a.dtype.length := rfl
  have hsl : Int.toNat ((a.shape.length : Nat) : Int) = a.shape.length := rfl
  rw [npSaveBytes, npLoadBytes, hdl, List.take_left' hd, List.drop_left' hd,
    if_pos hd, map_intChar_id, npLoadShape, hsl, List.take_left' hs,
    List.drop_left' hs, if_pos hs, map_intNat_id]

/-- Postprocessing is the identity when the document records the array's own
shape and dtype and the array is well-formed. -/
theorem postprocessArr_self (doc : ArrayDoc) (a : NpArray)
    (hsh : doc.shape = a.shape) (hdt : doc.dtype = a.dtype)
    (hwf : a.shape.prod = a.elems.length) :
    postprocessArr doc a = some a := by
  by_cases h : doc.shape = [] ∨ doc.dtype = []
  · rw [postprocessArr, if_pos h]
  · rw [postprocessArr, if_neg h, hsh, hdt]
    simp [reshapeArr, hwf]

/-- C6: for every well-formed array (shape size = value count) and mutually
inverse compression codec, when the encoded payload is at or below the 5 MB
threshold, `serialize_numpy_array` succeeds without touching the external
stores, the descriptor carries storage type `"binary"` with the payload
embedded, and `deserialize_numpy_array` on that descriptor returns an array
equal to the original in dtype, shape and values. -/
theorem C6_inline_round_trip (comp decomp : List Int → List Int)
    (compress hasDb : Bool) (storageTypeOpt : Option Str) (cfgLfs : Str)
    (arr : NpArray) (st : ArrStore)
    (hwf : arr.shape.prod = arr.elems.length)
    (hinv : ∀ bs, decomp (comp bs) = bs)
    (hsmall : (if compress then comp (npSaveBytes arr) else npSaveBytes arr).length
      ≤ 5 * 1024 * 1024) :
    ∃ doc, serializeNumpyArray comp compress hasDb storageTypeOpt cfgLfs arr st =
        some (doc, st) ∧
      doc.storageType = binaryStr ∧
      deserializeNumpyArray decomp hasDb st doc = some arr := by
  refine ⟨{ storageType := binaryStr,
            data := some (if compress then comp (npSaveBytes arr) else npSaveBytes arr),
            filePath := none, fileId := none, dtype := arr.dtype,
            shape := arr.shape, compressed := compress }, ?_, rfl, ?_⟩
  · simp only [serializeNumpyArray]
    rw [if_neg (not_lt.mpr hsmall)]
  · simp only [deserializeNumpyArray]
    rw [if_neg (fun h => absurd h.1 (by decide : ¬ binaryStr = gridfsStr)),
      if_neg (by decide : ¬ binaryStr = localStr)]
    cases compress with
    | false =>
      simp only [Bool.false_eq_true, if_false]
      rw [npLoadBytes_npSaveBytes]
      exact postprocessArr_self _ _ rfl rfl hwf
    | true =>
      simp only [if_true]
      rw [hinv, npLoadBytes_npSaveBytes]
      exact postprocessArr_self _ _ rfl rfl hwf

/-- Witness for C6: a two-element int64 vector, identity codec, compression
on; serialization embeds the payload with tier `"binary"` and deserialization
returns the array unchanged. -/
theorem C6_inline_round_trip_witness :
    ∃ doc, serializeNumpyArray (fun bs => bs) true false none noneStr
        ⟨['i', 'n', 't', '6', '4'], [2], [3, 4]⟩ ⟨[], [], 0⟩ =
        some (doc, ⟨[], [], 0⟩) ∧
      doc.storageType = binaryStr ∧
      deserializeNumpyArray (fun bs => bs) false ⟨[], [], 0⟩ doc =
        some ⟨['i', 'n', 't', '6', '4'], [2], [3, 4]⟩ :=
  C6_inline_round_trip (fun bs => bs) (fun bs => bs) true false none noneStr
    ⟨['i', 'n', 't', '6', '4'], [2], [3, 4]⟩ ⟨[], [], 0⟩
    (by decide) (fun bs => rfl) (by decide)

/-! ### C9: `_manage_cache_size` (serialization.py)

The cache is a list of files with access time, name (the `Path`, naturals
standing for path strings) and size.  `files.sort()` sorts the Python pairs
`(st_atime, Path)` lexicographically; `random.choice` over the (at most two)
LRU candidates is modeled nondeterministically by a stream of booleans, every
stream being quantified over (`true` picks the second candidate when it
exists); `files.remove(selected)` drops the chosen candidate.  The loop
removes one file per iteration, so `files.length` much fuel makes the fueled
loop exact. -/

/-- A cached file: access time, path stand-in, size. -/
structure CacheFile where
  atime : Nat
  name : Nat
  size : Nat
deriving DecidableEq, Repr

/-- Python's tuple order on `(st_atime, Path)`. -/
def cacheLe (a b : CacheFile) : Prop :=
  a.atime < b.atime ∨ (a.atime = b.atime ∧ a.name ≤ b.name)

instance : DecidableRel cacheLe := fun a b =>
  inferInstanceAs (Decidable (a.atime < b.atime ∨ (a.atime = b.atime ∧ a.name ≤ b.name)))

instance : IsTotal CacheFile cacheLe :=
  ⟨fun a b => by unfold cacheLe; omega⟩

instance : IsTrans CacheFile cacheLe :=
  ⟨fun a b c h1 h2 => by unfold cacheLe at *; omega⟩

/-- `total_size`: the sum of the cached files' sizes. -/
def totalSize (files : List CacheFile) : Nat := (files.map CacheFile.size).sum

theorem totalSize_cons (f : CacheFile) (t : List CacheFile) :
    totalSize (f :: t) = f.size + totalSize t := by
  rw [totalSize, totalSize, List.map_cons, List.sum_cons]

/-- The eviction loop of `_manage_cache_size`: while over budget and files
remain, pick one of the first two (LRU) candidates by the next random draw,
drop it, subtract its size.  Returns the surviving files and the trace of
`(evicted file, files present at that step)`. -/
def evictLoop (maxSize : Nat) : Nat → List Bool → List CacheFile → Nat →
    List CacheFile × List (CacheFile × List CacheFile)
  | 0, _, files, _ => (files, [])
  | _ + 1, _, [], _ => ([], [])
  | fuel + 1, rand, [f0], total =>
    if total ≤ maxSize then ([f0], [])
    else
      ((evictLoop maxSize fuel rand.tail [] (total - f0.size)).1,
        (f0, [f0]) :: (evictLoop maxSize fuel rand.tail [] (total - f0.size)).2)
  | fuel + 1, rand, f0 :: f1 :: rest, total =>
    if total ≤ maxSize then (f0 :: f1 :: rest, [])
    else if rand.headD false then
      ((evictLoop maxSize fuel rand.tail (f0 :: rest) (total - f1.size)).1,
        (f1, f0 :: f1 :: rest) ::
          (evictLoop maxSize fuel rand.tail (f0 :: rest) (total - f1.size)).2)
    else
      ((evictLoop maxSize fuel rand.tail (f1 :: rest) (total - f0.size)).1,
        (f0, f0 :: f1 :: rest) ::
          (evictLoop maxSize fuel rand.tail (f1 :: rest) (total - f0.size)).2)

/-- `_manage_cache_size`: compute the total, and only when it exceeds the
maximum, sort by `(st_atime, Path)` and run the eviction loop. -/
def manageCacheSize (maxSize : Nat) (rand : List Bool) (files : List CacheFile) :
    List CacheFile × List (CacheFile × List CacheFile) :=
  if maxSize < totalSize files then
    evictLoop maxSize files.length rand (files.insertionSort cacheLe) (totalSize files)
  else (files, [])

theorem cacheLe_atime {a b : CacheFile} (h : cacheLe a b) : a.atime ≤ b.atime := by
  unfold cacheLe at h; omega

/-- Eviction-loop invariant: with enough fuel, an exact total and a sorted
file list, the loop ends at or under budget or empty, and every trace event
evicts one of the two oldest remaining files with at most one strictly older
file present. -/
theorem evictLoop_spec (maxSize : Nat) : ∀ (fuel : Nat) (rand : List Bool)
    (files : List CacheFile) (total : Nat),
    files.length ≤ fuel → total = totalSize files → files.Sorted cacheLe →
    ((totalSize (evictLoop maxSize fuel rand files total).1 ≤ maxSize ∨
      (evictLoop maxSize fuel rand files total).1 = []) ∧
    ∀ ev ∈ (evictLoop maxSize fuel rand files total).2,
      ev.2.Sorted cacheLe ∧ ev.1 ∈ ev.2.take 2 ∧
        (ev.2.filter (fun g => decide (g.atime < ev.1.atime))).length ≤ 1) := by
  intro fuel
  induction fuel with
  | zero =>
    intro rand files total hlen htot hsort
    have hnil : files = [] := List.eq_nil_of_length_eq_zero (Nat.le_zero.mp hlen)
    subst hnil
    rw [evictLoop]
    exact ⟨Or.inr rfl, fun ev hev => absurd hev (List.not_mem_nil ev)⟩
  | succ fuel ih =>
    intro rand files total hlen htot hsort
    by_cases hle : total ≤ maxSize
    · cases files with
      | nil =>
        rw [evictLoop]
        exact ⟨Or.inr rfl, fun ev hev => absurd hev (List.not_mem_nil ev)⟩
      | cons f0 tail =>
        cases tail with
        | nil =>
          rw [evictLoop, if_pos hle]
          exact ⟨Or.inl (htot ▸ hle), fun ev hev => absurd hev (List.not_mem_nil ev)⟩
        | cons f1 rest =>
          rw [evictLoop, if_pos hle]
          exact ⟨Or.inl (htot ▸ hle), fun ev hev => absurd hev (List.not_mem_nil ev)⟩
    · cases files with
      | nil =>
        rw [evictLoop]
        exact ⟨Or.inr rfl, fun ev hev => absurd hev (List.not_mem_nil ev)⟩
      | cons f0 tail =>
        cases tail with
        | nil =>
          rw [evictLoop, if_neg hle]
          have htot1 : total = f0.size + 0 := by
            rw [htot, totalSize_cons]; rfl
          have ihres := ih rand.tail [] (total - f0.size)
            (Nat.zero_le _) (by rw [totalSize]; simp; omega) List.sorted_nil
          refine ⟨ihres.1, ?_⟩
          intro ev hev
          rcases List.mem_cons.mp hev with heq | hmem
          · subst heq
            refine ⟨List.sorted_singleton f0, by simp, ?_⟩
            simp [List.filter_cons]
          · exact ihres.2 ev hmem
        | cons f1 rest =>
          have hsort0 := hsort
          rw [List.sorted_cons] at hsort
          rw [List.sorted_cons] at hsort
          have h0all : ∀ b ∈ f1 :: rest, cacheLe f0 b := by
            rw [List.sorted_cons] at hsort0
            exact hsort0.1
          have h1all : ∀ b ∈ rest, cacheLe f1 b := hsort.2.1
          have hlen2 : rest.length + 1 ≤ fuel := by
            simp only [List.length_cons] at hlen; omega
          have htot2 : total = f0.size + (f1.size + totalSize rest) := by
            rw [htot, totalSize_cons, totalSize_cons]
          rw [evictLoop, if_neg hle]
          cases hb : rand.headD false with
          | true =>
            rw [if_pos rfl]
            have hrem : (f0 :: rest).Sorted cacheLe :=
              List.sorted_cons.mpr
                ⟨fun b hb2 => h0all b (List.mem_cons_of_mem f1 hb2), hsort.2.2⟩
            have ihres := ih rand.tail (f0 :: rest) (total - f1.size)
              (by simp only [List.length_cons]; omega)
              (by rw [totalSize_cons]; omega) hrem
            refine ⟨ihres.1, ?_⟩
            intro ev hev
            rcases List.mem_cons.mp hev with heq | hmem
            · subst heq
              refine ⟨hsort0, by simp, ?_⟩
              have hfil : (f1 :: rest).filter
                  (fun g => decide (g.atime < f1.atime)) = [] := by
                rw [List.filter_eq_nil_iff]
                intro g hg
                rcases List.mem_cons.mp hg with rfl | hgr
                · simp
                · have := cacheLe_atime (h1all g hgr)
                  simp; omega
              rw [List.filter_cons, hfil]
              by_cases hf : f0.atime < f1.atime
              · rw [if_pos (by simpa using hf)]
                simp
              · rw [if_neg (by simpa using hf)]
                simp
            · exact ihres.2 ev hmem
          | false =>
            rw [if_neg Bool.false_ne_true]
            have ihres := ih rand.tail (f1 :: rest) (total - f0.size)
              (by simp only [List.length_cons]; omega)
              (by rw [totalSize_cons]; omega) (List.sorted_cons.mpr hsort.2)
            refine ⟨ihres.1, ?_⟩
            intro ev hev
            rcases List.mem_cons.mp hev with heq | hmem
            · subst heq
              refine ⟨hsort0, by simp, ?_⟩
              have hfil : (f0 :: f1 :: rest).filter
                  (fun g => decide (g.atime < f0.atime)) = [] := by
                rw [List.filter_eq_nil_iff]
                intro g hg
                rcases List.mem_cons.mp hg with rfl | hgr
                · simp
                · have := cacheLe_atime (h0all g hgr)
                  simp; omega
              rw [hfil]
              simp
            · exact ihres.2 ev hmem

/-- C9: for every cache state, maximum size and random draw sequence,
`_manage_cache_size` terminates with the surviving files at or below the
maximum total size or with an empty cache, and every evicted file was one of
the first two — i.e. the two least-recently-accessed — of the files remaining
at its step (listed sorted ascending by access time then path), so that at no
eviction do two or more strictly older files remain. -/
theorem C9_cache_eviction (maxSize : Nat) (rand : List Bool)
    (files : List CacheFile) :
    (totalSize (manageCacheSize maxSize rand files).1 ≤ maxSize ∨
      (manageCacheSize maxSize rand files).1 = []) ∧
    ∀ ev ∈ (manageCacheSize maxSize rand files).2,
      ev.2.Sorted cacheLe ∧ ev.1 ∈ ev.2.take 2 ∧
        (ev.2.filter (fun g => decide (g.atime < ev.1.atime))).length ≤ 1 := by
  rw [manageCacheSize]
  by_cases h : maxSize < totalSize files
  · rw [if_pos h]
    refine evictLoop_spec maxSize files.length rand _ _ ?_ ?_ ?_
    · exact le_of_eq (List.perm_insertionSort cacheLe files).length_eq
    · rw [totalSize, totalSize]
      exact (((List.perm_insertionSort cacheLe files).map CacheFile.size).sum_eq).symm
    · exact List.sorted_insertionSort cacheLe files
  · rw [if_neg h]
    exact ⟨Or.inl (not_lt.mp h), fun ev hev => absurd hev (List.not_mem_nil ev)⟩

end LabDB
